import Mathlib

/-!
Verification of the LLM-LoreSmith dataset-generation pipeline
(src/dataset_generation/dataset_pipeline.py) against its specification.

The Python code is shallowly embedded over `List Char`: every function of the
pipeline (whitespace normalization, sentence filtering, sample synthesis,
sufficiency analysis, dataset creation and its on-disk artifact state) is
translated into an executable Lean definition.  Library calls that live
outside the repository are modelled explicitly where noted:
`nltk.sent_tokenize` is modelled as a splitter that ends a sentence at a
maximal run of sentence-final punctuation followed by whitespace, and `md5`
plus wall-clock time are passed as parameters.
-/

set_option maxRecDepth 100000

namespace LoreSmith

/-- Characters matched by the regex whitespace class of Python (ASCII range). -/
def isWs (c : Char) : Bool :=
  c = ' ' || c = '\t' || c = '\n' || c = '\r' || c = '\x0b' || c = '\x0c'

/-- Sentence-final punctuation recognized by the sentence-tokenizer model. -/
def isPunct (c : Char) : Bool :=
  c = '.' || c = '!' || c = '?'

/-- Python str.strip, right half: drop trailing whitespace. -/
def stripR (t : List Char) : List Char :=
  (t.reverse.dropWhile isWs).reverse

/-- Python str.strip: drop leading and trailing whitespace. -/
def strip (t : List Char) : List Char :=
  stripR (t.dropWhile isWs)

/-- One pass of the regex substitution collapsing every whitespace run to a
single space; the flag records whether the previous character was whitespace. -/
def collapseWsAux : Bool → List Char → List Char
  | _, [] => []
  | prev, c :: rest =>
    if isWs c then
      if prev then collapseWsAux true rest else ' ' :: collapseWsAux true rest
    else c :: collapseWsAux false rest

/-- Regex substitution replacing every whitespace run by one space. -/
def collapseWs (t : List Char) : List Char :=
  collapseWsAux false t

/-- One pass of the regex substitution replacing every newline run by a blank
line (two newlines); the flag records whether the previous character was a
newline. -/
def collapseNlAux : Bool → List Char → List Char
  | _, [] => []
  | prev, c :: rest =>
    if c = '\n' then
      if prev then collapseNlAux true rest else '\n' :: '\n' :: collapseNlAux true rest
    else c :: collapseNlAux false rest

/-- Regex substitution replacing every newline run by two newlines. -/
def collapseNl (t : List Char) : List Char :=
  collapseNlAux false t

/-- ContentFilter._normalize_whitespace: collapse whitespace runs, collapse
newline runs, then strip. -/
def normalizeWhitespace (t : List Char) : List Char :=
  strip (collapseNl (collapseWs t))

/-- Tests whether a list starts with a whitespace character. -/
def headIsWs : List Char → Bool
  | [] => false
  | c :: _ => isWs c

/-- Modelled from the spec: sentence segmentation with locale-aware boundary
rules (nltk.sent_tokenize, which is library code outside this repository).
A sentence ends at a maximal run of sentence-final punctuation that is
followed by whitespace; the whitespace between sentences is consumed.  The
first argument is set while consuming inter-sentence or leading whitespace. -/
def sentAux : Bool → List Char → List Char → List (List Char)
  | _, [], acc => if acc = [] then [] else [acc.reverse]
  | skip, c :: rest, acc =>
    if skip && isWs c then sentAux true rest acc
    else if isPunct c && headIsWs rest then (c :: acc).reverse :: sentAux true rest []
    else sentAux false rest (c :: acc)

/-- Model of nltk.sent_tokenize over the sentence-boundary rules above. -/
def sentTokenize (t : List Char) : List (List Char) :=
  sentAux true t []

/-- Consume one or more decimal digits, returning the remainder on success. -/
def digits1 : List Char → Option (List Char)
  | c :: rest => if c.isDigit then some (rest.dropWhile Char.isDigit) else none
  | [] => none

/-- Consume a literal, returning the remainder on success. -/
def litThen (lit t : List Char) : Option (List Char) :=
  if lit.isPrefixOf t then some (t.drop lit.length) else none

def litPageSp : List Char := "Page ".data

def litOfSp : List Char := " of ".data

def litHapterSp : List Char := "hapter ".data

def litEctionSp : List Char := "ection ".data

def litIgureSp : List Char := "igure ".data

def litAbleSp : List Char := "able ".data

def litOpyrightC : List Char := "opyright ©".data

def litAllRights : List Char := "All rights reserved".data

def litConfid : List Char := "Confidential".data

/-- Matches the anchored regex for a Page N or Page N of M line. -/
def noisePage (t : List Char) : Bool :=
  match (litThen litPageSp t).bind digits1 with
  | none => false
  | some r =>
    r = [] ||
      (match (litThen litOfSp r).bind digits1 with
       | some [] => true
       | _ => false)

/-- Matches the anchored regex for an N/M page marker. -/
def noiseFraction (t : List Char) : Bool :=
  match digits1 t with
  | some ('/' :: r) =>
    (match digits1 r with
     | some [] => true
     | _ => false)
  | _ => false

/-- Matches the anchored regex for a Chapter N line. -/
def noiseChapter (t : List Char) : Bool :=
  match t with
  | c :: r =>
    (c = 'C' || c = 'c') &&
      (match (litThen litHapterSp r).bind digits1 with
       | some [] => true
       | _ => false)
  | [] => false

/-- Accepts zero or more groups of a dot followed by digits, up to the end of
the input; fuel keeps the recursion structural. -/
def dotDigitsEndAux : Nat → List Char → Bool
  | _, [] => true
  | fuel + 1, '.' :: r =>
    (match digits1 r with
     | some r2 => dotDigitsEndAux fuel r2
     | none => false)
  | _, _ => false

/-- Matches the anchored regex for a Section N(.N)* line. -/
def noiseSection (t : List Char) : Bool :=
  match t with
  | c :: r =>
    (c = 'S' || c = 's') &&
      (match (litThen litEctionSp r).bind digits1 with
       | some r2 => dotDigitsEndAux r2.length r2
       | none => false)
  | [] => false

/-- Accepts zero or more groups of a dot followed by digits, then a colon;
fuel keeps the recursion structural. -/
def dotDigitsColonAux : Nat → List Char → Bool
  | _, ':' :: _ => true
  | fuel + 1, '.' :: r =>
    (match digits1 r with
     | some r2 => dotDigitsColonAux fuel r2
     | none => false)
  | _, _ => false

/-- Matches the prefix regex for a Figure N(.N)*: caption. -/
def noiseFigure (t : List Char) : Bool :=
  match t with
  | c :: r =>
    (c = 'F' || c = 'f') &&
      (match (litThen litIgureSp r).bind digits1 with
       | some r2 => dotDigitsColonAux r2.length r2
       | none => false)
  | [] => false

/-- Matches the prefix regex for a Table N(.N)*: caption. -/
def noiseTable (t : List Char) : Bool :=
  match t with
  | c :: r =>
    (c = 'T' || c = 't') &&
      (match (litThen litAbleSp r).bind digits1 with
       | some r2 => dotDigitsColonAux r2.length r2
       | none => false)
  | [] => false

/-- Matches the prefix regex for a copyright line. -/
def noiseCopyright (t : List Char) : Bool :=
  match t with
  | c :: r => (c = 'C' || c = 'c') && litOpyrightC.isPrefixOf r
  | [] => false

/-- ContentFilter._is_noise: page numbers, headers, footers and similar
boilerplate, each regex anchored at the start of the stripped sentence. -/
def isNoise (s : List Char) : Bool :=
  let t := strip s
  (!t.isEmpty && t.all Char.isDigit)
  || noisePage t
  || noiseFraction t
  || noiseChapter t
  || noiseSection t
  || noiseFigure t
  || noiseTable t
  || noiseCopyright t
  || litAllRights.isPrefixOf t
  || litConfid.isPrefixOf t

def minSentenceLength : Nat := 10

def maxSentenceLength : Nat := 1000

def ellipsisMark : List Char := "...".data

/-- Per-sentence step of ContentFilter.filter_content: strip, drop empty or
short sentences, truncate overlong sentences appending an ellipsis, and drop
noise sentences. -/
def processSentence (s : List Char) : Option (List Char) :=
  let s1 := strip s
  if s1 = [] || s1.length < minSentenceLength then none
  else
    let s2 := if maxSentenceLength < s1.length
              then s1.take maxSentenceLength ++ ellipsisMark
              else s1
    if isNoise s2 then none else some s2

/-- Rejoin surviving sentences with a single-space separator. -/
def joinSpace : List (List Char) → List Char
  | [] => []
  | [p] => p
  | p :: q :: ps => p ++ ' ' :: joinSpace (q :: ps)

/-- ContentFilter.filter_content: normalize whitespace, segment into
sentences, filter each sentence, rejoin with single spaces. -/
def filterContent (t : List Char) : List Char :=
  joinSpace ((sentTokenize (normalizeWhitespace t)).filterMap processSentence)

/-- Position of the last newline within a list, if any. -/
def lastNlPosAux : Nat → Option Nat → List Char → Option Nat
  | _, best, [] => best
  | i, best, c :: rest => lastNlPosAux (i + 1) (if c = '\n' then some i else best) rest

/-- Index of the last newline of a list. -/
def lastNlPos (l : List Char) : Option Nat :=
  lastNlPosAux 0 none l

/-- Regex split of _create_samples_from_text on blank-line boundaries: a
newline, optional whitespace, and a second newline; the greedy whitespace
group extends each match to the last newline of the whitespace run.  Fuel
keeps the recursion structural and is initialized to the input length, which
the scan never exhausts. -/
def splitParasAux : Nat → List Char → List Char → List (List Char)
  | _, [], acc => [acc.reverse]
  | 0, t, acc => [acc.reverse ++ t]
  | fuel + 1, c :: rest, acc =>
    if c = '\n' then
      match lastNlPos (rest.takeWhile isWs) with
      | some k => acc.reverse :: splitParasAux fuel (rest.drop (k + 1)) []
      | none => splitParasAux fuel rest ('\n' :: acc)
    else splitParasAux fuel rest (c :: acc)

/-- Paragraph split of the synthesizer. -/
def splitParas (t : List Char) : List (List Char) :=
  splitParasAux t.length t []

/-- Word characters for regex word boundaries (ASCII range). -/
def isWordChar (c : Char) : Bool :=
  c.isAlphanum || c = '_'

/-- Scans for a word-bounded occurrence of a literal phrase, tracking whether
the previous character allows a boundary before the current position. -/
def boundedOccurAux (w : List Char) : Bool → List Char → Bool
  | prevOk, [] => prevOk && w.isEmpty
  | prevOk, c :: rest =>
    (prevOk && w.isPrefixOf (c :: rest) &&
      (match (c :: rest).drop w.length with
       | [] => true
       | d :: _ => !isWordChar d))
    || boundedOccurAux w (!isWordChar c) rest

/-- Word-bounded occurrence of a phrase anywhere in a text. -/
def boundedOccur (w t : List Char) : Bool :=
  boundedOccurAux w true t

/-- Lowercase a text, as re.IGNORECASE does for these ASCII patterns. -/
def lowerStr (t : List Char) : List Char :=
  t.map Char.toLower

/-- Cue phrases of _is_informative with the optional plural s of the regexes
expanded into explicit alternatives. -/
def informativePhrases : List (List Char) :=
  ["is".data, "are".data, "was".data, "were".data,
   "consists of".data, "consist of".data, "contains".data, "contain".data,
   "defined as".data, "refers to".data,
   "causes".data, "cause".data, "results in".data, "result in".data,
   "for example".data, "such as".data,
   "first".data, "second".data, "finally".data,
   "according to".data, "studies show".data]

/-- DatasetStructurer._is_informative: case-insensitive word-bounded search
for definitional, causal, example, sequence, or citation cue phrases. -/
def isInformative (t : List Char) : Bool :=
  informativePhrases.any (fun w => boundedOccur w (lowerStr t))

/-- Python str.split with no separator: split on whitespace runs, discarding
empty pieces.  The accumulator comes first to keep the recursion structural. -/
def pySplitAux : List Char → List Char → List (List Char)
  | acc, [] => if acc = [] then [] else [acc.reverse]
  | acc, c :: rest =>
    if isWs c then
      if acc = [] then pySplitAux [] rest else acc.reverse :: pySplitAux [] rest
    else pySplitAux (c :: acc) rest

/-- Python str.split with no separator. -/
def pySplit (t : List Char) : List (List Char) :=
  pySplitAux [] t

/-- Sample: one input-output training pair. -/
structure Sample where
  input : List Char
  output : List Char
deriving DecidableEq, Repr

def sumNoteTail : List Char :=
  "\n\n[Note: This is a placeholder summary. In the actual implementation, this would be generated using a summarization algorithm.]".data

def noContentMsg : List Char := "No content to summarize.".data

/-- DatasetStructurer._generate_summary: first sentence plus a placeholder
note. -/
def generateSummary (text : List Char) : List Char :=
  match sentTokenize text with
  | [] => noContentMsg
  | s :: _ => s ++ sumNoteTail

def questionPre : List Char := "What can you tell me about ".data

def questionPost : List Char := "?".data

/-- DatasetStructurer._generate_question: a subject made of the second and
third words of the first sentence, or none when the first sentence has fewer
than three words. -/
def generateQuestion (text : List Char) : Option (List Char) :=
  match sentTokenize text with
  | [] => none
  | s :: _ =>
    match pySplit s with
    | _ :: w1 :: w2 :: _ => some (questionPre ++ w1 ++ [' '] ++ w2 ++ questionPost)
    | _ => none

def ansNoteTail : List Char :=
  "\n\n[Note: This is a placeholder answer. In the actual implementation, this would be generated using a question-answering algorithm.]".data

/-- DatasetStructurer._generate_answer: first 200 characters plus ellipsis
plus a placeholder note; the question argument is unused by the code. -/
def generateAnswer (text : List Char) (_q : List Char) : List Char :=
  text.take 200 ++ ellipsisMark ++ ansNoteTail

def summarizePre : List Char := "Summarize the following text from ".data

def summarizeMid : List Char := ":\n\n".data

def theDocument : List Char := "the document".data

/-- Filename drawn from the document metadata dict with its default. -/
def filenameOf (meta : Option (List Char)) : List Char :=
  meta.getD theDocument

/-- Per-paragraph step of _create_samples_from_text: always a summary sample
for a qualifying paragraph, plus a knowledge sample when the paragraph is
longer than 200 characters, informative, and a question can be generated. -/
def paragraphSamples (meta : Option (List Char)) (p : List Char) : List Sample :=
  if strip p = [] || p.length < 100 then []
  else
    let s1 : Sample := ⟨summarizePre ++ filenameOf meta ++ summarizeMid ++ p, generateSummary p⟩
    if 200 < p.length && isInformative p then
      match generateQuestion p with
      | some q => [s1, ⟨q, generateAnswer p q⟩]
      | none => [s1]
    else [s1]

/-- DatasetStructurer._create_samples_from_text. -/
def createSamplesFromText (text : List Char) (meta : Option (List Char)) : List Sample :=
  (splitParas text).flatMap (paragraphSamples meta)

def minDatasetSize : Nat := 1000

def minSamples : Nat := 10

def optimalSamples : Nat := 100

/-- Sum over samples of the input length plus the output length. -/
def totalCharsOf (samples : List Sample) : Nat :=
  (samples.map (fun s => s.input.length + s.output.length)).sum

/-- Size component of the sufficiency score. -/
def sizeScore (tc : Nat) : ℚ :=
  min 100 ((tc : ℚ) / (minDatasetSize : ℚ) * 50)

/-- Count component of the sufficiency score. -/
def countScore (n : Nat) : ℚ :=
  min 50 ((n : ℚ) / (optimalSamples : ℚ) * 50)

/-- Analysis result of DatasetAnalyzer.analyze_dataset, with the stats dict
flattened into fields. -/
structure Analysis where
  is_sufficient : Bool
  message : List Char
  sample_count : Nat
  total_chars : Nat
  avg_sample_length : ℚ
  sufficiency_score : ℚ
deriving Repr

def msgEmptyDataset : List Char := "Dataset is empty".data

def msgGoodQuality : List Char := "Dataset is sufficient and of good quality".data

def msgMinimallySufficient : List Char :=
  "Dataset is minimally sufficient but could be improved".data

def msgFewSamples : List Char := "Insufficient samples (minimum 10 required)".data

def msgFewChars : List Char := "Insufficient content (minimum 1000 characters required)".data

/-- DatasetAnalyzer.analyze_dataset, with Python float arithmetic embedded as
exact rational arithmetic. -/
def analyzeDataset (samples : List Sample) : Analysis :=
  if samples = [] then
    ⟨false, msgEmptyDataset, 0, 0, 0, 0⟩
  else
    let n := samples.length
    let tc := totalCharsOf samples
    let avg : ℚ := if 0 < n then (tc : ℚ) / (n : ℚ) else 0
    let score := sizeScore tc + countScore n
    let suff := decide (minDatasetSize ≤ tc) && decide (minSamples ≤ n)
    let msg :=
      if suff then
        if (80 : ℚ) ≤ score then msgGoodQuality else msgMinimallySufficient
      else
        if n < minSamples then msgFewSamples else msgFewChars
    ⟨suff, msg, n, tc, avg, score⟩

/-- Extraction environment: the external document store plus the per-format
extraction strategies (PyPDF2, python-docx, plain file reads, BeautifulSoup),
which are library code outside this repository; an extractor may fail with an
exception message. -/
structure ExtractEnv where
  getPath : List Char → Option (List Char)
  getFilename : List Char → Option (List Char)
  extractPdf : List Char → Except (List Char) (List Char)
  extractDocx : List Char → Except (List Char) (List Char)
  extractText : List Char → Except (List Char) (List Char)
  extractHtml : List Char → Except (List Char) (List Char)

/-- Basename: the part of a path after the last slash. -/
def basenameOf (path : List Char) : List Char :=
  (path.reverse.takeWhile (fun c => c ≠ '/')).reverse

/-- Extension part of os.path.splitext: from the last dot of the basename,
with leading dots of the basename not starting an extension. -/
def splitextExt (path : List Char) : List Char :=
  let b := basenameOf path
  let rest := b.drop (b.takeWhile (fun c => c = '.')).length
  let tailPart := rest.reverse.takeWhile (fun c => c ≠ '.')
  if tailPart.length = rest.length then [] else '.' :: tailPart.reverse

/-- File extension, lowercased, as extract_from_document computes it. -/
def extOf (path : List Char) : List Char :=
  (splitextExt path).map Char.toLower

def extPdf : List Char := ".pdf".data

def extDocx : List Char := ".docx".data

def extTxt : List Char := ".txt".data

def extMd : List Char := ".md".data

def extHtml : List Char := ".html".data

/-- The five file extensions with an extraction strategy. -/
def supportedExts : List (List Char) :=
  [extPdf, extDocx, extTxt, extMd, extHtml]

/-- Format dispatch of extract_from_document: none for unsupported formats,
with .txt and .md sharing the plain-text strategy. -/
def dispatchExtract (env : ExtractEnv) (path : List Char) :
    Option (Except (List Char) (List Char)) :=
  let ext := extOf path
  if ext = extPdf then some (env.extractPdf path)
  else if ext = extDocx then some (env.extractDocx path)
  else if ext = extTxt || ext = extMd then some (env.extractText path)
  else if ext = extHtml then some (env.extractHtml path)
  else none

def msgDocPre : List Char := "Document with ID ".data

def msgDocPost : List Char := " not found".data

def msgUnsupported : List Char := "Unsupported file format: ".data

def msgNoContent : List Char := "No text content extracted from document".data

def msgExtractOk : List Char := "Text extracted successfully".data

def msgErrorPre : List Char := "Error extracting text: ".data

/-- TextExtractor.extract_from_document: look up the path, dispatch on the
lowercased extension, fail on unsupported formats without attempting any
extraction, catch extractor exceptions, and reject empty or whitespace-only
text. -/
def extractFromDocument (env : ExtractEnv) (docId : List Char) :
    Bool × List Char × Option (List Char) :=
  match env.getPath docId with
  | none => (false, msgDocPre ++ docId ++ msgDocPost, none)
  | some path =>
    match dispatchExtract env path with
    | none => (false, msgUnsupported ++ extOf path, none)
    | some (Except.error e) => (false, msgErrorPre ++ e, none)
    | some (Except.ok text) =>
      if text = [] || strip text = [] then (false, msgNoContent, none)
      else (true, msgExtractOk, some text)

/-- Metadata artifact persisted by create_dataset. -/
structure DatasetMetadata where
  dataset_id : List Char
  document_ids : List (List Char)
  sample_count : Nat
  created_at : List Char
  is_sufficient : Bool
  sufficiency_score : ℚ

/-- Files of one dataset directory. -/
structure DatasetFiles where
  datasetJson : Option (List Sample)
  analysisJson : Option Analysis
  metadataJson : Option DatasetMetadata

/-- A freshly created dataset directory with no files yet. -/
def emptyDatasetDir : DatasetFiles :=
  ⟨none, none, none⟩

instance : Inhabited DatasetFiles := ⟨emptyDatasetDir⟩

/-- On-disk state of the datasets base directory: one entry per dataset
directory. -/
structure FS where
  dirs : List (List Char × DatasetFiles)

/-- Association-list lookup of a dataset directory. -/
def dirLookup : List (List Char × DatasetFiles) → List Char → Option DatasetFiles
  | [], _ => none
  | (k, v) :: rest, did => if k = did then some v else dirLookup rest did

/-- os.makedirs with exist_ok: create the dataset directory if absent. -/
def FS.mkdir (fs : FS) (did : List Char) : FS :=
  match dirLookup fs.dirs did with
  | some _ => fs
  | none => ⟨fs.dirs ++ [(did, emptyDatasetDir)]⟩

/-- Write the three dataset artifacts into the dataset directory. -/
def FS.writeAll (fs : FS) (did : List Char) (samples : List Sample)
    (analysis : Analysis) (md : DatasetMetadata) : FS :=
  ⟨fs.dirs.map (fun kv => if kv.1 = did then (kv.1, ⟨some samples, some analysis, some md⟩) else kv)⟩

/-- DatasetStructurer.list_datasets: the dataset directory names. -/
def FS.listDatasets (fs : FS) : List (List Char) :=
  fs.dirs.map Prod.fst

/-- DatasetStructurer.get_dataset: the stored sample list, if present. -/
def FS.getDataset (fs : FS) (did : List Char) : Option (List Sample) :=
  (dirLookup fs.dirs did).bind (fun d => d.datasetJson)

/-- DatasetStructurer.get_dataset_metadata: the stored metadata, if present. -/
def FS.getMetadata (fs : FS) (did : List Char) : Option DatasetMetadata :=
  (dirLookup fs.dirs did).bind (fun d => d.metadataJson)

/-- Lexicographic comparison of strings by code point, as Python sorted uses. -/
def lexLe : List Char → List Char → Bool
  | [], _ => true
  | _ :: _, [] => false
  | a :: ta, b :: tb => if a = b then lexLe ta tb else decide (a.toNat < b.toNat)

/-- Insert into an already sorted list of strings. -/
def insertSorted (x : List Char) : List (List Char) → List (List Char)
  | [] => [x]
  | y :: ys => if lexLe x y then x :: y :: ys else y :: insertSorted x ys

/-- Python sorted on strings, realized as an insertion sort over the
code-point lexicographic order. -/
def sortStrings (l : List (List Char)) : List (List Char) :=
  l.foldr insertSorted []

/-- Decimal digit character. -/
def digitChar (n : Nat) : Char :=
  Char.ofNat (48 + n)

/-- Decimal digits of a natural number; fuel keeps the recursion structural. -/
def natDigitsAux : Nat → Nat → List Char
  | 0, _ => []
  | fuel + 1, n =>
    if n < 10 then [digitChar n]
    else natDigitsAux fuel (n / 10) ++ [digitChar (n % 10)]

/-- Decimal representation of a natural number. -/
def natDigits (n : Nat) : List Char :=
  natDigitsAux (n + 1) n

def underscoreCh : List Char := "_".data

def dsTag : List Char := "ds_".data

def datasetTag : List Char := "dataset_".data

/-- DatasetStructurer._generate_id: join the sorted document ids with
underscores, hash them (md5 is library code, passed as a parameter), keep 8
hex digits, and combine with the current unix time. -/
def generateId (docIds : List (List Char)) (ts : Nat)
    (md5hex : List Char → List Char) : List Char :=
  let sortedIds := sortStrings docIds
  let hashInput := List.intercalate underscoreCh sortedIds
  let hashValue := (md5hex hashInput).take 8
  dsTag ++ natDigits ts ++ underscoreCh ++ hashValue

/-- Dataset id chosen by create_dataset: the given name when truthy in the
Python sense (present and non-empty), otherwise the generated id with the
dataset tag prepended. -/
def datasetIdOf (name : Option (List Char)) (docIds : List (List Char)) (ts : Nat)
    (md5hex : List Char → List Char) : List Char :=
  match name with
  | some n => if n = [] then datasetTag ++ generateId docIds ts md5hex else n
  | none => datasetTag ++ generateId docIds ts md5hex

/-- Per-document step of create_dataset: extract, skip failures and empty
results, filter the content, and synthesize samples with the document
metadata. -/
def docToSamples (env : ExtractEnv) (docId : List Char) : List Sample :=
  match extractFromDocument env docId with
  | (true, _, some text) =>
    if text = [] then []
    else createSamplesFromText (filterContent text) (env.getFilename docId)
  | _ => []

def createdAtConst : List Char := "2025-03-16T01:40:00Z".data

def msgNoDocs : List Char := "No documents specified".data

def msgNoValidSamples : List Char :=
  "No valid samples could be created from the documents".data

def msgCreatedPre : List Char := "Dataset created with ".data

def msgCreatedPost : List Char := " samples".data

/-- DatasetStructurer.create_dataset: validate the inputs, choose the dataset
id, create the dataset directory, accumulate samples over the documents, fail
if none, else analyze and persist the three artifacts.  Returns the new disk
state together with the success flag, the message, and the optional id. -/
def createDataset (env : ExtractEnv) (fs : FS) (docIds : List (List Char))
    (name : Option (List Char)) (ts : Nat) (md5hex : List Char → List Char) :
    FS × Bool × List Char × Option (List Char) :=
  if docIds = [] then (fs, false, msgNoDocs, none)
  else
    let did := datasetIdOf name docIds ts md5hex
    let fs1 := fs.mkdir did
    let samples := docIds.flatMap (docToSamples env)
    if samples = [] then (fs1, false, msgNoValidSamples, none)
    else
      let analysis := analyzeDataset samples
      let md : DatasetMetadata :=
        ⟨did, docIds, samples.length, createdAtConst, analysis.is_sufficient,
         analysis.sufficiency_score⟩
      (fs1.writeAll did samples analysis md, true,
       msgCreatedPre ++ natDigits samples.length ++ msgCreatedPost, some did)

/-! ## Invariant predicates used by the idempotence development -/

/-- All whitespace of a normalized text is a single isolated space. -/
def WsNorm (l : List Char) : Prop :=
  (∀ c ∈ l, isWs c = true → c = ' ') ∧
  List.Chain' (fun a b => ¬(isWs a = true ∧ isWs b = true)) l

/-- No sentence boundary inside: no punctuation character immediately
followed by whitespace. -/
def NoBreak (l : List Char) : Prop :=
  List.Chain' (fun a b => ¬(isPunct a = true ∧ isWs b = true)) l

/-- The first character, if any, is not whitespace. -/
def HeadNonWs (l : List Char) : Prop :=
  ∀ c, l.head? = some c → isWs c = false

/-- The last character, if any, is not whitespace. -/
def LastNonWs (l : List Char) : Prop :=
  ∀ c, l.getLast? = some c → isWs c = false

/-- Ends with sentence-final punctuation. -/
def EndsPunct (l : List Char) : Prop :=
  ∃ c, l.getLast? = some c ∧ isPunct c = true

/-- All sentences except possibly the last end with punctuation. -/
def SepOk (ps : List (List Char)) : Prop :=
  ∀ p ∈ ps.dropLast, EndsPunct p

/-! ## Concrete fixtures used by counterexamples and witnesses -/

/-- A fixed stand-in digest standing for the md5 hex digest parameter. -/
def md5Stub : List Char → List Char :=
  fun _ => "0123456789abcdef".data

/-- A document id used by concrete runs. -/
def docD : List Char := "d1".data

/-- A plain-text path used by concrete runs. -/
def pathTxt : List Char := "doc.txt".data

/-- A path with an unsupported extension. -/
def pathXyz : List Char := "doc.xyz".data

/-- A whitespace-only extraction result. -/
def wsText : List Char := "   ".data

/-- An empty datasets directory. -/
def emptyFS : FS := ⟨[]⟩

/-- A single-sentence informative document body, 175 characters long. -/
def sampleText : List Char :=
  "The ancient fortress of Karthis is defined as the primary stronghold of the northern realm and it stands upon a cliff overlooking the sea while guarding the only mountain pass.".data

/-- An environment whose only document is a plain-text file with
sampleText as its content. -/
def envSample : ExtractEnv :=
  ⟨fun _ => some pathTxt, fun _ => some pathTxt,
   fun _ => Except.error [], fun _ => Except.error [],
   fun _ => Except.ok sampleText, fun _ => Except.error []⟩

/-- An environment in which no document can be found. -/
def envNone : ExtractEnv :=
  ⟨fun _ => none, fun _ => none,
   fun _ => Except.error [], fun _ => Except.error [],
   fun _ => Except.error [], fun _ => Except.error []⟩

/-- An environment whose only document has an unsupported extension; the
extractors would succeed if they were consulted. -/
def envUnsupported : ExtractEnv :=
  ⟨fun _ => some pathXyz, fun _ => none,
   fun p => Except.ok p, fun p => Except.ok p,
   fun p => Except.ok p, fun p => Except.ok p⟩

/-- An environment whose only document is a plain-text file whose extracted
content is whitespace-only. -/
def envWsOnly : ExtractEnv :=
  ⟨fun _ => some pathTxt, fun _ => none,
   fun _ => Except.error [], fun _ => Except.error [],
   fun _ => Except.ok wsText, fun _ => Except.error []⟩

/-- A dataset name passed explicitly to create_dataset. -/
def nameMy : List Char := "mydataset".data

/-- A clean single-sentence, single-paragraph text of exactly 200 characters
containing the cue phrase of a definition. -/
def cex2Text : List Char :=
  "The widget is defined as a small mechanical component used across many industrial machines and engines and factories worldwide while remaining quite easy to machine from raw steel stock in most shops.".data

/-- The 200-character text extended to 201 characters. -/
def para201 : List Char := cex2Text ++ ['!']

/-- A 142-character text with no informative cue phrase. -/
def para150 : List Char :=
  "Karthis fortress guards a narrow northern mountain pass beside deep icy gorges under tall grey cliff walls near that cold remote frontier zone".data

/-! ## Claims about the sufficiency analyzer -/

/-- Size component is monotone in the character total. -/
lemma sizeScore_mono {a b : Nat} (h : a ≤ b) : sizeScore a ≤ sizeScore b := by
  unfold sizeScore
  apply min_le_min le_rfl
  have hq : (a : ℚ) ≤ (b : ℚ) := by exact_mod_cast h
  gcongr

/-- Count component is monotone in the sample count. -/
lemma countScore_mono {a b : Nat} (h : a ≤ b) : countScore a ≤ countScore b := by
  unfold countScore
  apply min_le_min le_rfl
  have hq : (a : ℚ) ≤ (b : ℚ) := by exact_mod_cast h
  gcongr

/-- Unfolding of the analyzer on a non-empty sample list. -/
lemma analyzeDataset_ne (samples : List Sample) (h : samples ≠ []) :
    analyzeDataset samples =
      ⟨decide (minDatasetSize ≤ totalCharsOf samples) && decide (minSamples ≤ samples.length),
       (if decide (minDatasetSize ≤ totalCharsOf samples) && decide (minSamples ≤ samples.length) then
          if (80 : ℚ) ≤ sizeScore (totalCharsOf samples) + countScore samples.length then
            msgGoodQuality else msgMinimallySufficient
        else if samples.length < minSamples then msgFewSamples else msgFewChars),
       samples.length, totalCharsOf samples,
       (if 0 < samples.length then (totalCharsOf samples : ℚ) / (samples.length : ℚ) else 0),
       sizeScore (totalCharsOf samples) + countScore samples.length⟩ := by
  unfold analyzeDataset
  rw [if_neg h]

/-- Claim C6: analyze_dataset is the pure function of the sample list given by
the specified formulas: the empty list yields an insufficient report with the
empty-dataset message and zero stats, and a non-empty list yields the
documented totals, average, min-capped score components, and sufficiency
condition. -/
theorem analyze_dataset_spec (samples : List Sample) :
    (samples = [] →
      (analyzeDataset samples).is_sufficient = false ∧
      (analyzeDataset samples).message = msgEmptyDataset ∧
      (analyzeDataset samples).sample_count = 0 ∧
      (analyzeDataset samples).total_chars = 0 ∧
      (analyzeDataset samples).avg_sample_length = 0 ∧
      (analyzeDataset samples).sufficiency_score = 0) ∧
    (samples ≠ [] →
      (analyzeDataset samples).total_chars = totalCharsOf samples ∧
      (analyzeDataset samples).sample_count = samples.length ∧
      (analyzeDataset samples).avg_sample_length
        = (totalCharsOf samples : ℚ) / (samples.length : ℚ) ∧
      (analyzeDataset samples).sufficiency_score
        = min 100 ((totalCharsOf samples : ℚ) / 1000 * 50)
          + min 50 ((samples.length : ℚ) / 100 * 50) ∧
      ((analyzeDataset samples).is_sufficient = true ↔
        1000 ≤ totalCharsOf samples ∧ 10 ≤ samples.length)) := by
  constructor
  · rintro rfl
    simp [analyzeDataset]
  · intro h
    have hpos : 0 < samples.length := List.length_pos.mpr h
    rw [analyzeDataset_ne samples h]
    refine ⟨rfl, rfl, by simp [hpos], ?_, ?_⟩
    · simp [sizeScore, countScore, minDatasetSize, optimalSamples]
    · simp [minDatasetSize, minSamples]

/-- Witness for C6 at the empty list and at a concrete one-sample list. -/
theorem analyze_dataset_spec_witness :
    (analyzeDataset []).message = msgEmptyDataset ∧
    (analyzeDataset [⟨['a'], ['b']⟩]).total_chars = 2 := by
  refine ⟨((analyze_dataset_spec []).1 rfl).2.1, ?_⟩
  have h := (analyze_dataset_spec [⟨['a'], ['b']⟩]).2 (by simp)
  rw [h.1]
  decide

/-- Claim C7: with equal character totals the sufficiency score is monotone in
the sample count, and with equal sample counts it is monotone in the
character total. -/
theorem sufficiency_score_monotone (xs ys : List Sample)
    (hx : xs ≠ []) (hy : ys ≠ []) :
    (totalCharsOf xs = totalCharsOf ys → xs.length ≤ ys.length →
      (analyzeDataset xs).sufficiency_score ≤ (analyzeDataset ys).sufficiency_score) ∧
    (xs.length = ys.length → totalCharsOf xs ≤ totalCharsOf ys →
      (analyzeDataset xs).sufficiency_score ≤ (analyzeDataset ys).sufficiency_score) := by
  rw [analyzeDataset_ne xs hx, analyzeDataset_ne ys hy]
  constructor
  · intro hts hn
    exact add_le_add (by rw [hts]) (countScore_mono hn)
  · intro hn hts
    exact add_le_add (sizeScore_mono hts) (by rw [hn])

/-- Witness for C7 at concrete sample lists satisfying both hypothesis sets. -/
theorem sufficiency_score_monotone_witness :
    (analyzeDataset [⟨['a'], ['b']⟩]).sufficiency_score ≤
      (analyzeDataset [⟨['a'], ['b']⟩]).sufficiency_score := by
  exact (sufficiency_score_monotone [⟨['a'], ['b']⟩] [⟨['a'], ['b']⟩]
    (by simp) (by simp)).1 rfl le_rfl

/-- Claim C8: the sufficiency score always lies between 0 and 150, and a
collection of 100 samples totalling 2000 characters pushes it strictly above
100. -/
theorem sufficiency_score_bounds :
    (∀ samples : List Sample,
      0 ≤ (analyzeDataset samples).sufficiency_score ∧
      (analyzeDataset samples).sufficiency_score ≤ 150) ∧
    (∃ samples : List Sample, 100 < (analyzeDataset samples).sufficiency_score) := by
  constructor
  · intro samples
    by_cases h : samples = []
    · subst h
      simp [analyzeDataset]
    · rw [analyzeDataset_ne samples h]
      have h1 : 0 ≤ sizeScore (totalCharsOf samples) := by
        unfold sizeScore
        positivity
      have h2 : 0 ≤ countScore samples.length := by
        unfold countScore
        positivity
      have h3 : sizeScore (totalCharsOf samples) ≤ 100 := min_le_left _ _
      have h4 : countScore samples.length ≤ 50 := min_le_left _ _
      constructor
      · exact add_nonneg h1 h2
      · linarith
  · refine ⟨List.replicate 100 ⟨List.replicate 10 'a', List.replicate 10 'a'⟩, ?_⟩
    have hne : (List.replicate 100 (⟨List.replicate 10 'a', List.replicate 10 'a'⟩ : Sample)) ≠ [] := by
      simp
    rw [analyzeDataset_ne _ hne]
    have htc : totalCharsOf (List.replicate 100 ⟨List.replicate 10 'a', List.replicate 10 'a'⟩) = 2000 := by
      simp [totalCharsOf, List.map_replicate, List.sum_replicate]
    rw [htc]
    simp only [List.length_replicate]
    norm_num [sizeScore, countScore, minDatasetSize, optimalSamples]

/-! ## Facts about the dataset directory state -/

/-- Unfolding equation of the association-list lookup on a cons cell. -/
lemma dirLookup_cons (k : List Char) (v : DatasetFiles)
    (rest : List (List Char × DatasetFiles)) (did : List Char) :
    dirLookup ((k, v) :: rest) did = if k = did then some v else dirLookup rest did := rfl

/-- Lookup over an appended association list. -/
lemma dirLookup_append (l1 l2 : List (List Char × DatasetFiles)) (did : List Char) :
    dirLookup (l1 ++ l2) did =
      (match dirLookup l1 did with
       | some v => some v
       | none => dirLookup l2 did) := by
  induction l1 with
  | nil => rfl
  | cons kv rest ih =>
    obtain ⟨k, v⟩ := kv
    rw [List.cons_append, dirLookup_cons, dirLookup_cons]
    by_cases h : k = did
    · rw [if_pos h, if_pos h]
    · rw [if_neg h, if_neg h, ih]

/-- A successful lookup means the key is listed. -/
lemma dirLookup_some_mem {l : List (List Char × DatasetFiles)} {did : List Char}
    {v : DatasetFiles} (h : dirLookup l did = some v) : did ∈ l.map Prod.fst := by
  induction l with
  | nil => exact absurd h (by simp [dirLookup])
  | cons kv rest ih =>
    obtain ⟨k, w⟩ := kv
    rw [dirLookup_cons] at h
    by_cases hk : k = did
    · simp [hk]
    · rw [if_neg hk] at h
      simp [ih h]

/-- Creating the dataset directory registers it in the listing. -/
lemma mkdir_mem_listDatasets (fs : FS) (did : List Char) :
    did ∈ (fs.mkdir did).listDatasets := by
  unfold FS.mkdir FS.listDatasets
  cases h : dirLookup fs.dirs did with
  | some v => exact dirLookup_some_mem h
  | none => simp

/-- After creating the dataset directory its lookup succeeds. -/
lemma mkdir_lookup_isSome (fs : FS) (did : List Char) :
    (dirLookup (fs.mkdir did).dirs did).isSome = true := by
  unfold FS.mkdir
  cases h : dirLookup fs.dirs did with
  | some v => simp [h]
  | none =>
    rw [dirLookup_append, h]
    simp [dirLookup_cons]

/-- Creating a dataset directory changes no stored file, since a fresh
directory holds none. -/
lemma mkdir_bind (fs : FS) (did d : List Char) {α : Type}
    (f : DatasetFiles → Option α) (hf : f emptyDatasetDir = none) :
    (dirLookup (fs.mkdir did).dirs d).bind f = (dirLookup fs.dirs d).bind f := by
  unfold FS.mkdir
  cases h : dirLookup fs.dirs did with
  | some v => rfl
  | none =>
    rw [dirLookup_append]
    cases h2 : dirLookup fs.dirs d with
    | some v => rfl
    | none =>
      by_cases hd : did = d
      · simp [dirLookup_cons, hd, hf]
      · simp [dirLookup_cons, hd, dirLookup]

/-- get_dataset is unaffected by directory creation. -/
lemma mkdir_getDataset (fs : FS) (did d : List Char) :
    (fs.mkdir did).getDataset d = fs.getDataset d := by
  unfold FS.getDataset
  exact mkdir_bind fs did d _ rfl

/-- get_dataset_metadata is unaffected by directory creation. -/
lemma mkdir_getMetadata (fs : FS) (did d : List Char) :
    (fs.mkdir did).getMetadata d = fs.getMetadata d := by
  unfold FS.getMetadata
  exact mkdir_bind fs did d _ rfl

/-- Writing the three artifacts makes the metadata readable. -/
lemma dirLookup_map_write (l : List (List Char × DatasetFiles)) (did : List Char)
    (s : List Sample) (a : Analysis) (m : DatasetMetadata)
    (h : (dirLookup l did).isSome = true) :
    dirLookup (l.map (fun kv => if kv.1 = did then (kv.1, ⟨some s, some a, some m⟩) else kv)) did
      = some ⟨some s, some a, some m⟩ := by
  induction l with
  | nil => exact absurd h (by simp [dirLookup])
  | cons kv rest ih =>
    obtain ⟨k, v⟩ := kv
    rw [dirLookup_cons] at h
    by_cases hk : k = did
    · subst hk
      simp [dirLookup_cons]
    · rw [if_neg hk] at h
      simp only [List.map_cons]
      rw [if_neg hk, dirLookup_cons, if_neg hk]
      exact ih h

/-- Reading back the metadata written by writeAll. -/
lemma writeAll_getMetadata_self (fs : FS) (did : List Char) (s : List Sample)
    (a : Analysis) (m : DatasetMetadata) (h : (dirLookup fs.dirs did).isSome = true) :
    (fs.writeAll did s a m).getMetadata did = some m := by
  unfold FS.writeAll FS.getMetadata
  rw [dirLookup_map_write fs.dirs did s a m h]
  rfl

/-- Unfolding of create_dataset when documents are given but no samples
accumulate. -/
lemma createDataset_noSamples (env : ExtractEnv) (fs : FS) (docIds : List (List Char))
    (name : Option (List Char)) (ts : Nat) (md5hex : List Char → List Char)
    (hne : docIds ≠ []) (hs : docIds.flatMap (docToSamples env) = []) :
    createDataset env fs docIds name ts md5hex =
      (fs.mkdir (datasetIdOf name docIds ts md5hex), false, msgNoValidSamples, none) := by
  simp [createDataset, hne, hs]

/-- Unfolding of create_dataset on a successful run. -/
lemma createDataset_success (env : ExtractEnv) (fs : FS) (docIds : List (List Char))
    (name : Option (List Char)) (ts : Nat) (md5hex : List Char → List Char)
    (hne : docIds ≠ []) (hs : docIds.flatMap (docToSamples env) ≠ []) :
    createDataset env fs docIds name ts md5hex =
      ((fs.mkdir (datasetIdOf name docIds ts md5hex)).writeAll
         (datasetIdOf name docIds ts md5hex)
         (docIds.flatMap (docToSamples env))
         (analyzeDataset (docIds.flatMap (docToSamples env)))
         ⟨datasetIdOf name docIds ts md5hex, docIds,
          (docIds.flatMap (docToSamples env)).length, createdAtConst,
          (analyzeDataset (docIds.flatMap (docToSamples env))).is_sufficient,
          (analyzeDataset (docIds.flatMap (docToSamples env))).sufficiency_score⟩,
       true,
       msgCreatedPre ++ natDigits (docIds.flatMap (docToSamples env)).length ++ msgCreatedPost,
       some (datasetIdOf name docIds ts md5hex)) := by
  simp [createDataset, hne, hs]

/-- Every successful create_dataset call persists metadata whose creation
time is the fixed constant. -/
lemma createDataset_created_at (env : ExtractEnv) (fs : FS) (docIds : List (List Char))
    (name : Option (List Char)) (ts : Nat) (md5hex : List Char → List Char)
    (did : List Char)
    (hsucc : (createDataset env fs docIds name ts md5hex).2.2.2 = some did) :
    ∃ md, (createDataset env fs docIds name ts md5hex).1.getMetadata did = some md ∧
      md.created_at = createdAtConst := by
  by_cases hne : docIds = []
  · subst hne
    simp [createDataset] at hsucc
  · by_cases hs : docIds.flatMap (docToSamples env) = []
    · rw [createDataset_noSamples env fs docIds name ts md5hex hne hs] at hsucc
      simp at hsucc
    · rw [createDataset_success env fs docIds name ts md5hex hne hs] at hsucc ⊢
      simp only [Option.some_inj] at hsucc
      subst hsucc
      exact ⟨_, writeAll_getMetadata_self _ _ _ _ _ (mkdir_lookup_isSome fs _), rfl⟩

/-- Claim C10: the created_at field persisted by any successful create_dataset
call equals the fixed constant string, independent of the wall-clock
timestamp of the call, so any two successfully created datasets carry
identical created_at values. -/
theorem created_at_constant (env1 env2 : ExtractEnv) (fsA fsB : FS)
    (ids1 ids2 : List (List Char)) (name1 name2 : Option (List Char))
    (ts1 ts2 : Nat) (md5a md5b : List Char → List Char) (did1 did2 : List Char)
    (h1 : (createDataset env1 fsA ids1 name1 ts1 md5a).2.2.2 = some did1)
    (h2 : (createDataset env2 fsB ids2 name2 ts2 md5b).2.2.2 = some did2) :
    ∃ md1 md2,
      (createDataset env1 fsA ids1 name1 ts1 md5a).1.getMetadata did1 = some md1 ∧
      (createDataset env2 fsB ids2 name2 ts2 md5b).1.getMetadata did2 = some md2 ∧
      md1.created_at = createdAtConst ∧ md2.created_at = createdAtConst ∧
      md1.created_at = md2.created_at := by
  obtain ⟨m1, hm1, hc1⟩ := createDataset_created_at env1 fsA ids1 name1 ts1 md5a did1 h1
  obtain ⟨m2, hm2, hc2⟩ := createDataset_created_at env2 fsB ids2 name2 ts2 md5b did2 h2
  exact ⟨m1, m2, hm1, hm2, hc1, hc2, hc1.trans hc2.symm⟩

/-- Witness for C10: two successful concrete runs at different timestamps. -/
theorem created_at_constant_witness :
    ∃ md1 md2,
      (createDataset envSample emptyFS [docD] none 7 md5Stub).1.getMetadata
        "dataset_ds_7_01234567".data = some md1 ∧
      (createDataset envSample emptyFS [docD] none 8 md5Stub).1.getMetadata
        "dataset_ds_8_01234567".data = some md2 ∧
      md1.created_at = createdAtConst ∧ md2.created_at = createdAtConst ∧
      md1.created_at = md2.created_at :=
  created_at_constant envSample envSample emptyFS emptyFS [docD] [docD] none none
    7 8 md5Stub md5Stub "dataset_ds_7_01234567".data "dataset_ds_8_01234567".data
    (by decide) (by decide)

/-- Counterexample to claim C1 as stated: a create_dataset call with a
non-empty document list and no extractable samples fails with the
no-valid-samples result, yet the set of dataset directories observed by
list_datasets is changed by the failed call, and the computed dataset id is
listed afterwards. -/
theorem create_dataset_failed_changes_listing :
    (createDataset envNone emptyFS [docD] (some nameMy) 7 md5Stub).2 =
      (false, msgNoValidSamples, none) ∧
    (createDataset envNone emptyFS [docD] (some nameMy) 7 md5Stub).1.listDatasets ≠
      emptyFS.listDatasets ∧
    nameMy ∈ (createDataset envNone emptyFS [docD] (some nameMy) 7 md5Stub).1.listDatasets := by
  refine ⟨by decide, by decide, by decide⟩

/-- Claim C1 (amended): when create_dataset is called with a non-empty
document list but the accumulated sample collection is empty, it fails with
the no-valid-samples result and writes no dataset files — get_dataset and
get_dataset_metadata are unchanged for every id, so no dataset artifact with
the computed id exists afterwards — but the dataset directory itself was
already created before samples were accumulated, so list_datasets afterwards
contains the computed dataset id. -/
theorem create_dataset_no_valid_samples (env : ExtractEnv) (fs : FS)
    (docIds : List (List Char)) (name : Option (List Char)) (ts : Nat)
    (md5hex : List Char → List Char)
    (hne : docIds ≠ []) (hemp : docIds.flatMap (docToSamples env) = []) :
    (createDataset env fs docIds name ts md5hex).2 = (false, msgNoValidSamples, none) ∧
    (∀ d, (createDataset env fs docIds name ts md5hex).1.getDataset d = fs.getDataset d) ∧
    (∀ d, (createDataset env fs docIds name ts md5hex).1.getMetadata d = fs.getMetadata d) ∧
    datasetIdOf name docIds ts md5hex ∈
      (createDataset env fs docIds name ts md5hex).1.listDatasets := by
  rw [createDataset_noSamples env fs docIds name ts md5hex hne hemp]
  exact ⟨rfl, fun d => mkdir_getDataset fs _ d, fun d => mkdir_getMetadata fs _ d,
    mkdir_mem_listDatasets fs _⟩

/-- Witness for the amended C1 at a concrete failing run. -/
theorem create_dataset_no_valid_samples_witness :
    (createDataset envNone emptyFS [docD] (some nameMy) 7 md5Stub).2 =
      (false, msgNoValidSamples, none) ∧
    nameMy ∈ (createDataset envNone emptyFS [docD] (some nameMy) 7 md5Stub).1.listDatasets := by
  have h := create_dataset_no_valid_samples envNone emptyFS [docD] (some nameMy) 7 md5Stub
    (by decide) (by decide)
  have e : datasetIdOf (some nameMy) [docD] 7 md5Stub = nameMy := by decide
  exact ⟨h.1, e ▸ h.2.2.2⟩

/-! ## Dataset identifiers -/

/-- Counterexample to claim C5 as stated: with no name given the computed id
starts with the dataset_ tag rather than having the claimed ds_ shape, and an
empty given name is not used verbatim. -/
theorem dataset_id_format_cex :
    (datasetIdOf none [docD] 1 md5Stub).take 3 ≠ dsTag ∧
    datasetIdOf none [docD] 1 md5Stub = "dataset_ds_1_01234567".data ∧
    datasetIdOf (some []) [docD] 1 md5Stub ≠ [] := by
  refine ⟨by decide, by decide, by decide⟩

/-- Claim C5 (amended): a non-empty given name is used verbatim; with no name
(or an empty name, which Python treats as falsy) the id is the dataset_ tag
followed by ds_, the unix time, an underscore, and the first 8 hex characters
of the md5 digest of the sorted document ids joined by underscores. -/
theorem dataset_id_spec (name : Option (List Char)) (docIds : List (List Char))
    (ts : Nat) (md5hex : List Char → List Char) :
    (∀ n, name = some n → n ≠ [] → datasetIdOf name docIds ts md5hex = n) ∧
    (name = none ∨ name = some [] →
      datasetIdOf name docIds ts md5hex =
        datasetTag ++ (dsTag ++ natDigits ts ++ underscoreCh ++
          (md5hex (List.intercalate underscoreCh (sortStrings docIds))).take 8)) := by
  constructor
  · rintro n rfl hn
    simp [datasetIdOf, hn]
  · rintro (rfl | rfl) <;> rfl

/-- Witness for the amended C5 with a concrete name and a concrete unnamed
call. -/
theorem dataset_id_spec_witness :
    datasetIdOf (some nameMy) [docD] 5 md5Stub = nameMy ∧
    datasetIdOf none [docD] 5 md5Stub =
      datasetTag ++ (dsTag ++ natDigits 5 ++ underscoreCh ++
        (md5Stub (List.intercalate underscoreCh (sortStrings [docD]))).take 8) :=
  ⟨(dataset_id_spec (some nameMy) [docD] 5 md5Stub).1 nameMy rfl (by decide),
   (dataset_id_spec none [docD] 5 md5Stub).2 (Or.inl rfl)⟩

/-! ## Text extraction failures -/

/-- Dispatch returns nothing exactly on unsupported extensions. -/
lemma dispatchExtract_none (env : ExtractEnv) (path : List Char)
    (h : extOf path ∉ supportedExts) : dispatchExtract env path = none := by
  simp only [supportedExts, List.mem_cons, List.not_mem_nil, or_false, not_or] at h
  obtain ⟨h1, h2, h3, h4, h5⟩ := h
  simp [dispatchExtract, h1, h2, h3, h4, h5]

/-- Claim C9: extract_from_document fails on an unsupported extension with
the unsupported-format message without consulting any extractor, and on a
supported document whose extracted text is empty or whitespace-only it fails
with the empty-content message; in both failures the returned text is none. -/
theorem extract_unsupported_or_empty (env : ExtractEnv) (docId path : List Char)
    (hpath : env.getPath docId = some path) :
    (extOf path ∉ supportedExts →
      extractFromDocument env docId = (false, msgUnsupported ++ extOf path, none)) ∧
    (∀ text, dispatchExtract env path = some (Except.ok text) → strip text = [] →
      extractFromDocument env docId = (false, msgNoContent, none)) := by
  constructor
  · intro h
    unfold extractFromDocument
    rw [hpath]
    simp only [dispatchExtract_none env path h]
  · intro text hd hstrip
    unfold extractFromDocument
    rw [hpath]
    simp only [hd]
    simp [hstrip]

/-- Witness for C9: an unsupported extension and a whitespace-only text. -/
theorem extract_unsupported_or_empty_witness :
    extractFromDocument envUnsupported docD = (false, msgUnsupported ++ extOf pathXyz, none) ∧
    extractFromDocument envWsOnly docD = (false, msgNoContent, none) := by
  constructor
  · exact (extract_unsupported_or_empty envUnsupported docD pathXyz rfl).1 (by decide)
  · exact (extract_unsupported_or_empty envWsOnly docD pathTxt rfl).2 wsText rfl (by decide)

/-! ## Sample counts per paragraph -/

/-- Counterexample to claim C2 as stated: a clean single-paragraph text of
exactly 200 characters containing the cue phrase of a definition yields one
sample, not two, because the knowledge-sample test requires strictly more
than 200 characters. -/
theorem samples_at_200_cex :
    cex2Text.length = 200 ∧
    splitParas cex2Text = [cex2Text] ∧
    isInformative cex2Text = true ∧
    filterContent cex2Text = cex2Text ∧
    (createSamplesFromText cex2Text none).length = 1 := by
  refine ⟨by decide, by decide, by decide, by decide, by decide⟩

/-- Claim C2 (amended): on a single-paragraph text, strictly more than 200
characters with an informative cue and a first sentence of at least three
words yield exactly two samples (one summary, one knowledge); between 100 and
200 characters yield exactly one sample (the summary only). -/
theorem samples_per_paragraph (t : List Char) (meta : Option (List Char))
    (hpara : splitParas t = [t]) (hstrip : strip t ≠ []) :
    (200 < t.length → isInformative t = true →
      (∃ s rest, sentTokenize t = s :: rest ∧ 3 ≤ (pySplit s).length) →
      (createSamplesFromText t meta).length = 2) ∧
    (100 ≤ t.length → t.length ≤ 200 →
      (createSamplesFromText t meta).length = 1) := by
  have hrw : createSamplesFromText t meta = paragraphSamples meta t := by
    unfold createSamplesFromText
    rw [hpara]
    simp
  rw [hrw]
  constructor
  · intro h200 hinf hq
    obtain ⟨s, rest, hsent, hws⟩ := hq
    have hlen : ¬ t.length < 100 := by omega
    have hq2 : ∃ q, generateQuestion t = some q := by
      rcases hw : pySplit s with _ | ⟨w0, tl0⟩
      · rw [hw] at hws; simp at hws
      · rcases tl0 with _ | ⟨w1, tl1⟩
        · rw [hw] at hws; simp at hws
        · rcases tl1 with _ | ⟨w2, tl2⟩
          · rw [hw] at hws; simp at hws
          · refine ⟨questionPre ++ w1 ++ [' '] ++ w2 ++ questionPost, ?_⟩
            unfold generateQuestion
            rw [hsent]
            simp [hw]
    obtain ⟨q, hqq⟩ := hq2
    simp [paragraphSamples, hstrip, hlen, h200, hinf, hqq]
  · intro h100 h200
    have hlen : ¬ t.length < 100 := by omega
    have h200b : ¬ 200 < t.length := by omega
    simp [paragraphSamples, hstrip, hlen, h200b]

/-- Witness for the amended C2 at a 201-character informative paragraph and a
142-character plain paragraph. -/
theorem samples_per_paragraph_witness :
    (createSamplesFromText para201 none).length = 2 ∧
    (createSamplesFromText para150 none).length = 1 := by
  constructor
  · exact (samples_per_paragraph para201 none (by decide) (by decide)).1
      (by decide) (by decide) ⟨para201, [], by decide, by decide⟩
  · exact (samples_per_paragraph para150 none (by decide) (by decide)).2
      (by decide) (by decide)

/-! ## Newlines never survive the content filter -/

/-- A suffix is contained within the list. -/
lemma suffix_within {l1 l2 : List Char} (h : l1 <:+ l2) : l1 <:+: l2 := by
  exact List.IsSuffix.isInfix h

/-- A prefix is contained within the list. -/
lemma prefix_within {l1 l2 : List Char} (h : l1 <+: l2) : l1 <:+: l2 := by
  exact List.IsPrefix.isInfix h

/-- A chain restricts to any contained segment. -/
lemma chain_within {R : Char → Char → Prop} {l1 l : List Char}
    (h : List.Chain' R l) (hp : l1 <:+: l) : List.Chain' R l1 := by
  exact List.Chain'.infix h hp

/-- Unfolding of the whitespace collapse on a cons cell. -/
lemma collapseWsAux_cons (b : Bool) (c : Char) (rest : List Char) :
    collapseWsAux b (c :: rest) =
      if isWs c then
        (if b then collapseWsAux true rest else ' ' :: collapseWsAux true rest)
      else c :: collapseWsAux false rest := rfl

/-- No newline appears in the output of the whitespace collapse. -/
lemma collapseWsAux_nl_not_mem (t : List Char) : ∀ b : Bool, '\n' ∉ collapseWsAux b t := by
  induction t with
  | nil => intro b; simp [collapseWsAux]
  | cons c rest ih =>
    intro b
    rw [collapseWsAux_cons]
    by_cases hw : isWs c
    · rw [if_pos hw]
      cases b
      · intro hmem
        simp only [Bool.false_eq_true, if_false] at hmem
        rcases List.mem_cons.mp hmem with h | h
        · exact absurd h (by decide)
        · exact ih true h
      · simpa using ih true
    · rw [if_neg hw]
      intro hmem
      rcases List.mem_cons.mp hmem with h | h
      · apply hw
        rw [← h]
        decide
      · exact ih false h

/-- Unfolding of the newline collapse on a cons cell. -/
lemma collapseNlAux_cons (b : Bool) (c : Char) (rest : List Char) :
    collapseNlAux b (c :: rest) =
      if c = '\n' then
        (if b then collapseNlAux true rest else '\n' :: '\n' :: collapseNlAux true rest)
      else c :: collapseNlAux false rest := rfl

/-- The newline collapse introduces no newline into newline-free text. -/
lemma collapseNlAux_nl_not_mem (t : List Char) : ∀ b : Bool,
    '\n' ∉ t → '\n' ∉ collapseNlAux b t := by
  induction t with
  | nil => intro b _; simp [collapseNlAux]
  | cons c rest ih =>
    intro b hn
    have hc : ¬ c = '\n' := fun h => hn (by simp [h])
    rw [collapseNlAux_cons, if_neg hc]
    intro hmem
    rcases List.mem_cons.mp hmem with h | h
    · exact hc h.symm
    · exact ih false (fun hx => hn (List.mem_cons_of_mem _ hx)) h

/-- Right strip is a sublist. -/
lemma stripR_sublist (t : List Char) : List.Sublist (stripR t) t := by
  have h := (List.dropWhile_sublist (l := t.reverse) (p := isWs)).reverse
  simpa [stripR] using h

/-- Strip is a sublist. -/
lemma strip_sublist (t : List Char) : List.Sublist (strip t) t := by
  unfold strip
  exact (stripR_sublist _).trans (List.dropWhile_sublist _)

/-- Unfolding of the sentence scanner on the empty list. -/
lemma sentAux_nil (skip : Bool) (acc : List Char) :
    sentAux skip [] acc = if acc = [] then [] else [acc.reverse] := rfl

/-- Unfolding of the sentence scanner on a cons cell. -/
lemma sentAux_cons (skip : Bool) (c : Char) (rest acc : List Char) :
    sentAux skip (c :: rest) acc =
      if skip && isWs c then sentAux true rest acc
      else if isPunct c && headIsWs rest then (c :: acc).reverse :: sentAux true rest []
      else sentAux false rest (c :: acc) := rfl

/-- Every sentence produced by the tokenizer is an infix of the scanned text
prefixed by the reversed accumulator. -/
lemma sentAux_chunk_part (t : List Char) : ∀ (acc : List Char) (skip : Bool),
    (skip = true → acc = []) → ∀ p ∈ sentAux skip t acc, p <:+: acc.reverse ++ t := by
  induction t with
  | nil =>
    intro acc skip _ p hp
    rw [sentAux_nil] at hp
    by_cases ha : acc = []
    · rw [if_pos ha] at hp
      exact absurd hp (List.not_mem_nil p)
    · rw [if_neg ha, List.mem_singleton] at hp
      subst hp
      rw [List.append_nil]
  | cons c rest ih =>
    intro acc skip hsk p hp
    rw [sentAux_cons] at hp
    by_cases h1 : skip && isWs c
    · rw [if_pos h1] at hp
      have h1b : skip = true ∧ isWs c = true := by simpa using h1
      have ha : acc = [] := hsk h1b.1
      subst ha
      have hinf := ih [] true (fun _ => rfl) p hp
      simp only [List.reverse_nil, List.nil_append] at hinf ⊢
      exact hinf.trans (suffix_within (List.suffix_cons c rest))
    · rw [if_neg h1] at hp
      by_cases h2 : isPunct c && headIsWs rest
      · rw [if_pos h2] at hp
        rcases List.mem_cons.mp hp with h | h
        · subst h
          rw [List.reverse_cons]
          exact prefix_within ⟨rest, by simp⟩
        · have hinf := ih [] true (fun _ => rfl) p h
          simp only [List.reverse_nil, List.nil_append] at hinf
          exact hinf.trans (suffix_within ((List.suffix_cons c rest).trans (List.suffix_append _ _)))
      · rw [if_neg h2] at hp
        have hinf := ih (c :: acc) false (by simp) p hp
        simpa [List.reverse_cons, List.append_assoc] using hinf

/-- Every tokenized sentence is an infix of the tokenized text. -/
lemma sentTokenize_part {t p : List Char} (hp : p ∈ sentTokenize t) : p <:+: t := by
  have h := sentAux_chunk_part t [] true (fun _ => rfl) p hp
  simpa using h

/-- Full description of a surviving sentence: the input stripped to a
non-empty text of at least the minimum length, not noise, and truncated with
an ellipsis exactly when overlong. -/
lemma processSentence_spec {s p : List Char} (h : processSentence s = some p) :
    strip s ≠ [] ∧ minSentenceLength ≤ (strip s).length ∧ isNoise p = false ∧
    (((strip s).length ≤ maxSentenceLength ∧ p = strip s) ∨
     (maxSentenceLength < (strip s).length ∧
        p = (strip s).take maxSentenceLength ++ ellipsisMark)) := by
  simp only [processSentence] at h
  split at h
  · exact absurd h (by simp)
  · rename_i hc
    simp only [Bool.or_eq_true, decide_eq_true_eq, not_or] at hc
    obtain ⟨hne, hlen⟩ := hc
    by_cases hc2 : maxSentenceLength < (strip s).length
    · rw [if_pos hc2] at h
      split at h
      · exact absurd h (by simp)
      · rename_i hn
        rw [Option.some_inj] at h
        subst h
        exact ⟨hne, Nat.not_lt.mp hlen, Bool.eq_false_iff.mpr hn, Or.inr ⟨hc2, rfl⟩⟩
    · rw [if_neg hc2] at h
      split at h
      · exact absurd h (by simp)
      · rename_i hn
        rw [Option.some_inj] at h
        subst h
        exact ⟨hne, Nat.not_lt.mp hlen, Bool.eq_false_iff.mpr hn,
          Or.inl ⟨Nat.not_lt.mp hc2, rfl⟩⟩

/-- Unfolding of the space join on two or more sentences. -/
lemma joinSpace_cons2 (p q : List Char) (rs : List (List Char)) :
    joinSpace (p :: q :: rs) = p ++ ' ' :: joinSpace (q :: rs) := rfl

/-- A character other than the space separator appears in the join only if it
appears in one of the joined pieces. -/
lemma joinSpace_not_mem {x : Char} (hx : x ≠ ' ') (ps : List (List Char))
    (h : ∀ p ∈ ps, x ∉ p) : x ∉ joinSpace ps := by
  induction ps with
  | nil => simp [joinSpace]
  | cons p rest ih =>
    cases rest with
    | nil => simpa [joinSpace] using h p (by simp)
    | cons q rs =>
      rw [joinSpace_cons2]
      intro hmem
      rcases List.mem_append.mp hmem with h1 | h1
      · exact h p (by simp) h1
      · rcases List.mem_cons.mp h1 with h2 | h2
        · exact hx h2
        · exact ih (fun r hr => h r (by simp [hr])) h2

/-- The normalized text contains no newline. -/
lemma normalizeWhitespace_nl_not_mem (t : List Char) : '\n' ∉ normalizeWhitespace t := by
  unfold normalizeWhitespace
  intro hmem
  have h1 : '\n' ∈ collapseNl (collapseWs t) := (strip_sublist _).subset hmem
  exact collapseNlAux_nl_not_mem _ false (collapseWsAux_nl_not_mem t false) h1

/-- The filtered text contains no newline. -/
lemma filterContent_nl_not_mem (t : List Char) : '\n' ∉ filterContent t := by
  unfold filterContent
  apply joinSpace_not_mem (by decide)
  intro p hp
  rcases List.mem_filterMap.mp hp with ⟨s, hs, hproc⟩
  intro hmem
  have hshape := (processSentence_spec hproc).2.2.2
  have hcs : '\n' ∈ strip s := by
    rcases hshape with ⟨_, hpe⟩ | ⟨_, hpe⟩
    · rw [hpe] at hmem
      exact hmem
    · rw [hpe] at hmem
      rcases List.mem_append.mp hmem with h | h
      · exact List.take_subset _ _ h
      · exact absurd h (by decide)
  have hcs2 : '\n' ∈ s := (strip_sublist s).subset hcs
  exact normalizeWhitespace_nl_not_mem t ((sentTokenize_part hs).subset hcs2)

/-- Unfolding of the paragraph scan on a cons cell with fuel. -/
lemma splitParasAux_cons (fuel : Nat) (c : Char) (rest acc : List Char) :
    splitParasAux (fuel + 1) (c :: rest) acc =
      if c = '\n' then
        (match lastNlPos (rest.takeWhile isWs) with
         | some k => acc.reverse :: splitParasAux fuel (rest.drop (k + 1)) []
         | none => splitParasAux fuel rest ('\n' :: acc))
      else splitParasAux fuel rest (c :: acc) := rfl

/-- The paragraph scan of a newline-free text yields one paragraph. -/
lemma splitParasAux_no_nl (t : List Char) : ∀ (fuel : Nat) (acc : List Char),
    '\n' ∉ t → splitParasAux fuel t acc = [acc.reverse ++ t] := by
  induction t with
  | nil => intro fuel acc _; cases fuel <;> simp [splitParasAux]
  | cons c rest ih =>
    intro fuel acc h
    have hc : ¬ c = '\n' := fun hx => h (by simp [hx])
    cases fuel with
    | zero => rfl
    | succ fuel =>
      rw [splitParasAux_cons, if_neg hc, ih fuel (c :: acc)
        (fun hx => h (List.mem_cons_of_mem _ hx))]
      simp

/-! ## Idempotence of the content filter: basic invariants -/

/-- Punctuation characters are not whitespace. -/
lemma isPunct_not_ws {c : Char} (h : isPunct c = true) : isWs c = false := by
  simp only [isPunct, Bool.or_eq_true, decide_eq_true_eq] at h
  rcases h with (h | h) | h <;> subst h <;> decide

/-- Normalization invariant restricted to the tail. -/
lemma wsNorm_cons {c : Char} {rest : List Char} (h : WsNorm (c :: rest)) : WsNorm rest :=
  ⟨fun x hx hw => h.1 x (List.mem_cons_of_mem _ hx) hw, h.2.tail⟩

/-- After a collapsed whitespace run, the next emitted character is not
whitespace. -/
lemma collapseWsAux_headNonWs (t : List Char) : HeadNonWs (collapseWsAux true t) := by
  induction t with
  | nil => intro c hc; simp [collapseWsAux] at hc
  | cons c rest ih =>
    rw [collapseWsAux_cons]
    by_cases hw : isWs c
    · rw [if_pos hw, if_pos rfl]
      exact ih
    · rw [if_neg hw]
      intro d hd
      rw [List.head?_cons, Option.some_inj] at hd
      subst hd
      exact Bool.eq_false_iff.mpr hw

/-- The whitespace collapse establishes the normalization invariant. -/
lemma collapseWsAux_wsNorm (t : List Char) : ∀ b, WsNorm (collapseWsAux b t) := by
  induction t with
  | nil => intro b; exact ⟨by simp [collapseWsAux], by simp [collapseWsAux]⟩
  | cons c rest ih =>
    intro b
    rw [collapseWsAux_cons]
    by_cases hw : isWs c
    · rw [if_pos hw]
      cases b
      · rw [if_neg (by simp)]
        constructor
        · intro x hx hwx
          rcases List.mem_cons.mp hx with h | h
          · exact h
          · exact (ih true).1 x h hwx
        · rw [List.chain'_cons']
          refine ⟨?_, (ih true).2⟩
          intro y hy hcon
          have := collapseWsAux_headNonWs rest y hy
          rw [this] at hcon
          exact absurd hcon.2 (by simp)
      · rw [if_pos rfl]
        exact ih true
    · rw [if_neg hw]
      constructor
      · intro x hx hwx
        rcases List.mem_cons.mp hx with h | h
        · subst h
          exact absurd hwx hw
        · exact (ih false).1 x h hwx
      · rw [List.chain'_cons']
        refine ⟨?_, (ih false).2⟩
        intro y _ hcon
        exact hw hcon.1

/-- The newline collapse does not change newline-free text. -/
lemma collapseNlAux_eq_self (t : List Char) : ∀ b, '\n' ∉ t → collapseNlAux b t = t := by
  induction t with
  | nil => intro b _; rfl
  | cons c rest ih =>
    intro b h
    have hc : ¬ c = '\n' := fun hx => h (by simp [hx])
    rw [collapseNlAux_cons, if_neg hc, ih false (fun hx => h (List.mem_cons_of_mem _ hx))]

/-- Normalized text contains no newline. -/
lemma wsNorm_no_nl {l : List Char} (h : WsNorm l) : '\n' ∉ l := by
  intro hmem
  exact absurd (h.1 '\n' hmem (by decide)) (by decide)

/-- The whitespace collapse does not change already normalized text. -/
lemma collapseWsAux_eq_self (t : List Char) : ∀ b, WsNorm t → (b = true → HeadNonWs t) →
    collapseWsAux b t = t := by
  induction t with
  | nil => intro b _ _; rfl
  | cons c rest ih =>
    intro b hn hb
    rw [collapseWsAux_cons]
    by_cases hw : isWs c
    · rw [if_pos hw]
      have hc : c = ' ' := hn.1 c (by simp) hw
      have hbf : b = false := by
        cases b
        · rfl
        · exact absurd hw (by simp [hb rfl c rfl])
      subst hbf
      rw [if_neg (by simp)]
      rw [hc]
      congr 1
      apply ih true (wsNorm_cons hn)
      intro _ d hd
      have hpair := (List.chain'_cons'.mp hn.2).1 d hd
      cases hhd : isWs d
      · rfl
      · exact absurd ⟨hw, hhd⟩ hpair
    · rw [if_neg hw]
      congr 1
      exact ih false (wsNorm_cons hn) (fun h => absurd h (by simp))

/-- dropWhile does nothing when the head is not whitespace. -/
lemma dropWhile_eq_self_of_headNonWs {l : List Char} (h : HeadNonWs l) :
    l.dropWhile isWs = l := by
  cases l with
  | nil => rfl
  | cons c rest => simp [List.dropWhile_cons, h c rfl]

/-- Right strip does nothing when the last character is not whitespace. -/
lemma stripR_eq_self {l : List Char} (h : LastNonWs l) : stripR l = l := by
  unfold stripR
  have hh : HeadNonWs l.reverse := by
    intro c hc
    rw [List.head?_reverse] at hc
    exact h c hc
  rw [dropWhile_eq_self_of_headNonWs hh, List.reverse_reverse]

/-- Strip does nothing when both ends are not whitespace. -/
lemma strip_eq_self {l : List Char} (h1 : HeadNonWs l) (h2 : LastNonWs l) :
    strip l = l := by
  unfold strip
  rw [dropWhile_eq_self_of_headNonWs h1, stripR_eq_self h2]

/-- Whitespace normalization does not change text that already satisfies the
normalization invariant with non-whitespace ends. -/
lemma normalizeWhitespace_eq_self {l : List Char} (hn : WsNorm l) (h1 : HeadNonWs l)
    (h2 : LastNonWs l) : normalizeWhitespace l = l := by
  unfold normalizeWhitespace collapseWs collapseNl
  rw [collapseWsAux_eq_self l false hn (fun h => absurd h (by simp)),
    collapseNlAux_eq_self l false (wsNorm_no_nl hn), strip_eq_self h1 h2]

/-- Strip produces an infix of its input. -/
lemma strip_part (t : List Char) : strip t <:+: t := by
  have h1 : (t.dropWhile isWs) <:+ t := List.dropWhile_suffix isWs
  have h2 : stripR (t.dropWhile isWs) <+: (t.dropWhile isWs) := by
    unfold stripR
    conv_rhs => rw [← List.reverse_reverse (t.dropWhile isWs)]
    exact List.reverse_prefix.mpr (List.dropWhile_suffix isWs)
  exact (prefix_within h2).trans (suffix_within h1)

/-- The normalization invariant restricts to infixes. -/
lemma wsNorm_part {l l' : List Char} (h : WsNorm l) (hinf : l' <:+: l) : WsNorm l' :=
  ⟨fun c hc hw => h.1 c (hinf.subset hc) hw, chain_within h.2 hinf⟩

/-- Absence of sentence boundaries restricts to infixes. -/
lemma noBreak_part {l l' : List Char} (h : NoBreak l) (hinf : l' <:+: l) : NoBreak l' :=
  chain_within h hinf

/-- headIsWs computes the whitespace test of the head. -/
lemma headIsWs_eq_true {l : List Char} {d : Char} (h : l.head? = some d) :
    headIsWs l = isWs d := by
  cases l with
  | nil => simp at h
  | cons x xs =>
    rw [List.head?_cons, Option.some_inj] at h
    subst h
    rfl

/-- The head survives taking a positive prefix. -/
lemma head?_take_pos {n : Nat} (hn : 0 < n) (l : List Char) : (l.take n).head? = l.head? := by
  cases l with
  | nil => simp
  | cons c rest =>
    cases n with
    | zero => exact absurd hn (by simp)
    | succ m => rfl

/-- The head of the stripped text is not whitespace. -/
lemma strip_headNonWs (s : List Char) : HeadNonWs (strip s) := by
  intro c hc
  have hpre : strip s <+: s.dropWhile isWs := by
    unfold strip stripR
    conv_rhs => rw [← List.reverse_reverse (s.dropWhile isWs)]
    exact List.reverse_prefix.mpr (List.dropWhile_suffix isWs)
  obtain ⟨w, hw⟩ := hpre
  have hmain := List.head?_dropWhile_not isWs s
  rw [← hw, List.head?_append, hc] at hmain
  simpa using hmain

/-- The last character of the stripped text is not whitespace. -/
lemma strip_lastNonWs (s : List Char) : LastNonWs (strip s) := by
  intro c hc
  unfold strip stripR at hc
  rw [List.getLast?_reverse] at hc
  have hmain := List.head?_dropWhile_not isWs (s.dropWhile isWs).reverse
  rw [hc] at hmain
  exact hmain

/-! ## Idempotence of the content filter: tokenizer facts -/

/-- Appending a character to a reversed accumulator keeps sentences free of
internal boundaries when the junction pair is safe. -/
lemma noBreak_snoc {acc : List Char} {c : Char} (hacc : NoBreak acc.reverse)
    (hj : ∀ a, acc.head? = some a → ¬(isPunct a = true ∧ isWs c = true)) :
    NoBreak (acc.reverse ++ [c]) := by
  unfold NoBreak at hacc ⊢
  rw [List.chain'_append]
  refine ⟨hacc, List.chain'_singleton _, ?_⟩
  intro a ha d hd
  rw [List.getLast?_reverse] at ha
  rw [Option.mem_def, List.head?_cons, Option.some_inj] at hd
  subst hd
  exact hj a (Option.mem_def.mp ha)

/-- Every sentence produced by the tokenizer scan is free of internal
boundaries. -/
lemma sentAux_noBreak (t : List Char) : ∀ (acc : List Char) (skip : Bool),
    NoBreak acc.reverse →
    (∀ a c, acc.head? = some a → t.head? = some c → ¬(isPunct a = true ∧ isWs c = true)) →
    (skip = true → acc = []) →
    ∀ p ∈ sentAux skip t acc, NoBreak p := by
  induction t with
  | nil =>
    intro acc skip hacc _ _ p hp
    rw [sentAux_nil] at hp
    by_cases ha : acc = []
    · rw [if_pos ha] at hp
      exact absurd hp (List.not_mem_nil p)
    · rw [if_neg ha, List.mem_singleton] at hp
      subst hp
      exact hacc
  | cons c rest ih =>
    intro acc skip hacc hjun hsk p hp
    rw [sentAux_cons] at hp
    by_cases h1 : skip && isWs c
    · rw [if_pos h1] at hp
      have h1b : skip = true ∧ isWs c = true := by simpa using h1
      have ha : acc = [] := hsk h1b.1
      subst ha
      exact ih [] true hacc (by intro a d h; simp at h) (fun _ => rfl) p hp
    · rw [if_neg h1] at hp
      by_cases h2 : isPunct c && headIsWs rest
      · rw [if_pos h2] at hp
        rcases List.mem_cons.mp hp with h | h
        · subst h
          rw [List.reverse_cons]
          exact noBreak_snoc hacc (fun a ha => hjun a c ha rfl)
        · exact ih [] true List.chain'_nil (by intro a d h; simp at h) (fun _ => rfl) p h
      · rw [if_neg h2] at hp
        refine ih (c :: acc) false ?_ ?_ (by simp) p hp
        · rw [List.reverse_cons]
          exact noBreak_snoc hacc (fun a ha => hjun a c ha rfl)
        · intro a d hha hhd
          rw [List.head?_cons, Option.some_inj] at hha
          subst hha
          intro hcon
          apply h2
          have hhw : headIsWs rest = true := by
            rw [headIsWs_eq_true hhd]
            exact hcon.2
          simp [hcon.1, hhw]

/-- Every tokenized sentence except possibly the last ends with punctuation. -/
lemma sentAux_sepOk (t : List Char) : ∀ (acc : List Char) (skip : Bool),
    ∀ p ∈ (sentAux skip t acc).dropLast, EndsPunct p := by
  induction t with
  | nil =>
    intro acc skip p hp
    rw [sentAux_nil] at hp
    by_cases ha : acc = []
    · rw [if_pos ha] at hp
      simp at hp
    · rw [if_neg ha] at hp
      simp at hp
  | cons c rest ih =>
    intro acc skip p hp
    rw [sentAux_cons] at hp
    by_cases h1 : skip && isWs c
    · rw [if_pos h1] at hp
      exact ih acc true p hp
    · rw [if_neg h1] at hp
      by_cases h2 : isPunct c && headIsWs rest
      · rw [if_pos h2] at hp
        cases hM : sentAux true rest [] with
        | nil =>
          rw [hM] at hp
          simp at hp
        | cons m M2 =>
          rw [hM, List.dropLast_cons₂] at hp
          rcases List.mem_cons.mp hp with h | h
          · subst h
            refine ⟨c, ?_, ?_⟩
            · rw [List.reverse_cons]
              exact List.getLast?_concat _
            · exact ((by simpa using h2 : isPunct c = true ∧ headIsWs rest = true)).1
          · exact ih [] true p (by rw [hM]; exact h)
      · rw [if_neg h2] at hp
        exact ih (c :: acc) false p hp

/-- Scanning a boundary-free piece accumulates it unchanged. -/
lemma sentAux_scan (p : List Char) : ∀ (rest acc : List Char),
    NoBreak (p ++ rest.take 1) →
    sentAux false (p ++ rest) acc = sentAux false rest (p.reverse ++ acc) := by
  induction p with
  | nil => intro rest acc _; simp
  | cons c p' ih =>
    intro rest acc hnb
    rw [List.cons_append] at hnb
    rw [List.cons_append, sentAux_cons, if_neg (by simp)]
    have hsplit : ¬ (isPunct c && headIsWs (p' ++ rest)) = true := by
      intro hcon
      have hcon2 : isPunct c = true ∧ headIsWs (p' ++ rest) = true := by simpa using hcon
      cases hh : (p' ++ rest).head? with
      | none =>
        have hnil : p' ++ rest = [] := List.head?_eq_none_iff.mp hh
        rw [hnil] at hcon2
        exact absurd hcon2.2 (by simp [headIsWs])
      | some d =>
        have hw : isWs d = true := by
          rw [← headIsWs_eq_true hh]
          exact hcon2.2
        have hh2 : (p' ++ rest.take 1).head? = some d := by
          rw [List.head?_append] at hh ⊢
          cases hp2 : p'.head? with
          | some x =>
            rw [hp2] at hh
            simpa using hh
          | none =>
            rw [hp2] at hh
            simp only [Option.none_or] at hh ⊢
            rw [head?_take_pos (by norm_num) rest]
            exact hh
        exact (List.chain'_cons'.mp hnb).1 d hh2 ⟨hcon2.1, hw⟩
    rw [if_neg hsplit]
    rw [ih rest (c :: acc) (List.chain'_cons'.mp hnb).2]
    congr 1
    simp

/-- A single clean sentence tokenizes to itself. -/
lemma sentAux_single {p : List Char} (hne : p ≠ []) (hh : HeadNonWs p)
    (hnb : NoBreak p) : sentAux true p [] = [p] := by
  cases p with
  | nil => exact absurd rfl hne
  | cons c p' =>
    rw [sentAux_cons, if_neg (by simp [hh c rfl])]
    have hsplit : ¬ (isPunct c && headIsWs p') = true := by
      intro hcon
      have hcon2 : isPunct c = true ∧ headIsWs p' = true := by simpa using hcon
      cases hh2 : p'.head? with
      | none =>
        have hnil : p' = [] := List.head?_eq_none_iff.mp hh2
        rw [hnil] at hcon2
        exact absurd hcon2.2 (by simp [headIsWs])
      | some d =>
        have hw : isWs d = true := by
          rw [← headIsWs_eq_true hh2]
          exact hcon2.2
        exact (List.chain'_cons'.mp hnb).1 d hh2 ⟨hcon2.1, hw⟩
    rw [if_neg hsplit]
    have hscan := sentAux_scan p' [] [c] (by
      rw [List.take_nil, List.append_nil]
      exact (List.chain'_cons'.mp hnb).2)
    rw [List.append_nil] at hscan
    rw [hscan, sentAux_nil, if_neg (by simp)]
    simp

/-- The tokenizer inverts the space join on clean, punctuation-separated
sentences. -/
lemma sentTokenize_joinSpace : ∀ (ps : List (List Char)),
    (∀ p ∈ ps, p ≠ [] ∧ HeadNonWs p ∧ NoBreak p) → SepOk ps →
    sentTokenize (joinSpace ps) = ps := by
  intro ps
  induction ps with
  | nil => intro _ _; rfl
  | cons p rest ih =>
    intro hall hsep
    cases rest with
    | nil =>
      obtain ⟨hne, hh, hnb⟩ := hall p (by simp)
      exact sentAux_single hne hh hnb
    | cons q rest2 =>
      obtain ⟨hne, hh, hnb⟩ := hall p (by simp)
      have hep : EndsPunct p := by
        refine hsep p ?_
        rw [List.dropLast_cons₂]
        exact List.mem_cons_self _ _
      obtain ⟨d, hd, hdp⟩ := hep
      have hIH : sentAux true (joinSpace (q :: rest2)) [] = q :: rest2 := by
        refine ih ?_ ?_
        · intro r hr
          exact hall r (List.mem_cons_of_mem _ hr)
        · intro r hr
          refine hsep r ?_
          rw [List.dropLast_cons₂]
          exact List.mem_cons_of_mem _ hr
      rw [joinSpace_cons2]
      obtain ⟨c, p', rfl⟩ : ∃ c p', p = c :: p' := by
        cases p with
        | nil => exact absurd rfl hne
        | cons a b => exact ⟨a, b, rfl⟩
      unfold sentTokenize
      rw [List.cons_append, sentAux_cons, if_neg (by simp [hh c rfl])]
      cases p' with
      | nil =>
        have hdc : c = d := by simpa using hd
        subst hdc
        rw [List.nil_append]
        rw [if_pos (by simp [hdp, headIsWs, isWs])]
        rw [sentAux_cons, if_pos (by decide)]
        rw [hIH]
        rfl
      | cons q2 p'' =>
        have hsplit :
            ¬ (isPunct c && headIsWs ((q2 :: p'') ++ ' ' :: joinSpace (q :: rest2))) = true := by
          intro hcon
          have hcon2 : isPunct c = true ∧
              headIsWs ((q2 :: p'') ++ ' ' :: joinSpace (q :: rest2)) = true := by
            simpa using hcon
          refine (List.chain'_cons'.mp hnb).1 q2 rfl ⟨hcon2.1, ?_⟩
          have hrfl : headIsWs ((q2 :: p'') ++ ' ' :: joinSpace (q :: rest2)) = isWs q2 := rfl
          rw [← hrfl]
          exact hcon2.2
        rw [if_neg hsplit]
        have hu : (q2 :: p'').dropLast ++ [d] = q2 :: p'' := by
          have h0 := List.dropLast_append_getLast? d (Option.mem_def.mpr hd)
          rw [List.dropLast_cons₂, List.cons_append] at h0
          injection h0
        rw [← hu, List.append_assoc, List.singleton_append]
        rw [sentAux_scan ((q2 :: p'').dropLast) (d :: ' ' :: joinSpace (q :: rest2)) [c] (by
          rw [show (d :: ' ' :: joinSpace (q :: rest2)).take 1 = [d] from rfl, hu]
          exact (List.chain'_cons'.mp hnb).2)]
        rw [sentAux_cons, if_neg (by simp), if_pos (by simp [hdp, headIsWs, isWs])]
        rw [sentAux_cons, if_pos (by decide)]
        rw [hIH]
        congr 1
        simp [List.append_assoc, hu]

/-! ## Idempotence of the content filter: processed sentences -/

/-- Stripping preserves a punctuation ending. -/
lemma endsPunct_strip {s : List Char} (h : EndsPunct s) : EndsPunct (strip s) := by
  obtain ⟨d, hd, hdp⟩ := h
  have hdw : isWs d = false := isPunct_not_ws hdp
  have h1 : (s.dropWhile isWs).getLast? = some d := by
    obtain ⟨pre, hpre⟩ := List.dropWhile_suffix (l := s) isWs
    by_cases hv : s.dropWhile isWs = []
    · have hall := List.dropWhile_eq_nil_iff.mp hv
      have hmem : d ∈ s := List.mem_of_getLast?_eq_some hd
      rw [hall d hmem] at hdw
      exact absurd hdw (by simp)
    · rw [← hpre, List.getLast?_append] at hd
      cases hvl : (s.dropWhile isWs).getLast? with
      | none => exact absurd (List.getLast?_eq_none_iff.mp hvl) hv
      | some e =>
        rw [hvl] at hd
        simpa using hd
  have hln : LastNonWs (s.dropWhile isWs) := by
    intro c hc
    rw [h1, Option.some_inj] at hc
    subst hc
    exact hdw
  refine ⟨d, ?_, hdp⟩
  unfold strip
  rw [stripR_eq_self hln]
  exact h1

/-- All structural invariants of a sentence surviving the filter, including
that filtering it again leaves it unchanged. -/
lemma processed_good {s p : List Char} (hWs : WsNorm s) (hNb : NoBreak s)
    (hproc : processSentence s = some p) :
    p ≠ [] ∧ HeadNonWs p ∧ LastNonWs p ∧ WsNorm p ∧ NoBreak p ∧
    processSentence p = some p ∧ (EndsPunct s → EndsPunct p) := by
  obtain ⟨hne, hlen, hnoise, hshape⟩ := processSentence_spec hproc
  have hWsS : WsNorm (strip s) := wsNorm_part hWs (strip_part s)
  have hNbS : NoBreak (strip s) := noBreak_part hNb (strip_part s)
  rcases hshape with ⟨hle, hpe⟩ | ⟨hgt, hpe⟩
  · subst hpe
    have hhd : HeadNonWs (strip s) := strip_headNonWs s
    have hlst : LastNonWs (strip s) := strip_lastNonWs s
    refine ⟨hne, hhd, hlst, hWsS, hNbS, ?_, endsPunct_strip⟩
    have hsp : strip (strip s) = strip s := strip_eq_self hhd hlst
    simp only [processSentence, hsp]
    rw [if_neg (by simp [hne]; omega)]
    rw [if_neg (show ¬ maxSentenceLength < (strip s).length by omega)]
    rw [if_neg (by simp [hnoise])]
  · subst hpe
    have hms : maxSentenceLength = 1000 := rfl
    have htklen : ((strip s).take maxSentenceLength).length = maxSentenceLength := by
      rw [List.length_take]
      omega
    have he3 : ellipsisMark.length = 3 := by decide
    have hplen : ((strip s).take maxSentenceLength ++ ellipsisMark).length = 1003 := by
      rw [List.length_append, htklen, he3, hms]
    have hpne : (strip s).take maxSentenceLength ++ ellipsisMark ≠ [] := by
      simp [ellipsisMark]
    have hsne : ∃ a, (strip s).head? = some a := by
      cases hstr : strip s with
      | nil => exact absurd hstr hne
      | cons a u => exact ⟨a, rfl⟩
    obtain ⟨a0, ha0⟩ := hsne
    have hhd : HeadNonWs ((strip s).take maxSentenceLength ++ ellipsisMark) := by
      intro c hc
      rw [List.head?_append, head?_take_pos (by rw [hms]; norm_num) (strip s), ha0] at hc
      simp only [Option.or_some, Option.some_inj] at hc
      subst hc
      exact strip_headNonWs s a0 ha0
    have hlst : LastNonWs ((strip s).take maxSentenceLength ++ ellipsisMark) := by
      intro c hc
      rw [List.getLast?_append, show ellipsisMark.getLast? = some '.' from by decide] at hc
      simp only [Option.or_some, Option.some_inj] at hc
      subst hc
      decide
    have hWsArg : WsNorm ((strip s).take maxSentenceLength) :=
      wsNorm_part hWsS (prefix_within (List.take_prefix _ _))
    have hNbArg : NoBreak ((strip s).take maxSentenceLength) :=
      noBreak_part hNbS (prefix_within (List.take_prefix _ _))
    have hWsP : WsNorm ((strip s).take maxSentenceLength ++ ellipsisMark) := by
      constructor
      · intro c hcm hw
        rcases List.mem_append.mp hcm with h | h
        · exact hWsArg.1 c h hw
        · have hc : c = '.' := by
            have hall : ∀ x ∈ ellipsisMark, x = '.' := by decide
            exact hall c h
          subst hc
          exact absurd hw (by decide)
      · rw [List.chain'_append]
        refine ⟨hWsArg.2, ?_, ?_⟩
        · rw [show ellipsisMark = ['.', '.', '.'] from by decide]
          exact List.chain'_cons.mpr ⟨by decide,
            List.chain'_cons.mpr ⟨by decide, List.chain'_singleton _⟩⟩
        · intro a ha d hd
          have hd2 : '.' = d := by
            have he : ellipsisMark.head? = some '.' := by decide
            rw [he] at hd
            simpa using hd
          subst hd2
          intro hcon
          exact absurd hcon.2 (by decide)
    have hNbP : NoBreak ((strip s).take maxSentenceLength ++ ellipsisMark) := by
      unfold NoBreak
      rw [List.chain'_append]
      refine ⟨hNbArg, ?_, ?_⟩
      · rw [show ellipsisMark = ['.', '.', '.'] from by decide]
        exact List.chain'_cons.mpr ⟨by decide,
          List.chain'_cons.mpr ⟨by decide, List.chain'_singleton _⟩⟩
      · intro a ha d hd
        have hd2 : '.' = d := by
          have he : ellipsisMark.head? = some '.' := by decide
          rw [he] at hd
          simpa using hd
        subst hd2
        intro hcon
        exact absurd hcon.2 (by decide)
    have hepP : EndsPunct ((strip s).take maxSentenceLength ++ ellipsisMark) := by
      refine ⟨'.', ?_, by decide⟩
      rw [List.getLast?_append, show ellipsisMark.getLast? = some '.' from by decide]
      rfl
    refine ⟨hpne, hhd, hlst, hWsP, hNbP, ?_, fun _ => hepP⟩
    have hsp : strip ((strip s).take maxSentenceLength ++ ellipsisMark)
        = (strip s).take maxSentenceLength ++ ellipsisMark := strip_eq_self hhd hlst
    simp only [processSentence, hsp]
    rw [if_neg (by
      simp only [Bool.or_eq_true, decide_eq_true_eq, not_or]
      refine ⟨hpne, ?_⟩
      rw [hplen]
      decide)]
    rw [if_pos (show maxSentenceLength < _ by rw [hplen, hms]; norm_num)]
    have htr : ((strip s).take maxSentenceLength ++ ellipsisMark).take maxSentenceLength
        ++ ellipsisMark = (strip s).take maxSentenceLength ++ ellipsisMark := by
      rw [List.take_append_of_le_length (by omega), List.take_take]
      simp
    rw [htr]
    rw [if_neg (by simp [hnoise])]

/-! ## Idempotence of the content filter: the joined output -/

/-- The join of a non-empty first sentence is non-empty. -/
lemma joinSpace_ne_nil {q : List Char} {rest : List (List Char)} (hq : q ≠ []) :
    joinSpace (q :: rest) ≠ [] := by
  cases rest with
  | nil => exact hq
  | cons r rs =>
    rw [joinSpace_cons2]
    intro h
    exact hq (List.append_eq_nil.mp h).1

/-- The head of the join is the head of the first sentence. -/
lemma joinSpace_head? {q : List Char} (rest : List (List Char)) (hq : q ≠ []) :
    (joinSpace (q :: rest)).head? = q.head? := by
  cases rest with
  | nil => rfl
  | cons r rs =>
    rw [joinSpace_cons2, List.head?_append]
    cases hh : q.head? with
    | none => exact absurd (List.head?_eq_none_iff.mp hh) hq
    | some a => simp

/-- The joined filter output satisfies the normalization invariant with
non-whitespace ends. -/
lemma joinSpace_invariants : ∀ (ps : List (List Char)),
    (∀ p ∈ ps, p ≠ [] ∧ HeadNonWs p ∧ LastNonWs p ∧ WsNorm p) →
    WsNorm (joinSpace ps) ∧ HeadNonWs (joinSpace ps) ∧ LastNonWs (joinSpace ps) := by
  intro ps
  induction ps with
  | nil =>
    intro _
    refine ⟨⟨by simp [joinSpace], by simp [joinSpace]⟩, ?_, ?_⟩
    · intro c hc
      simp [joinSpace] at hc
    · intro c hc
      simp [joinSpace] at hc
  | cons p rest ih =>
    intro hall
    obtain ⟨hne, hh, hl, hw⟩ := hall p (by simp)
    cases rest with
    | nil => exact ⟨hw, hh, hl⟩
    | cons q rest2 =>
      obtain ⟨hWsJ, hHJ, hLJ⟩ := ih (fun r hr => hall r (List.mem_cons_of_mem _ hr))
      have hqne : q ≠ [] := (hall q (by simp)).1
      have hJne : joinSpace (q :: rest2) ≠ [] := joinSpace_ne_nil hqne
      refine ⟨?_, ?_, ?_⟩
      · rw [joinSpace_cons2]
        constructor
        · intro c hc hcw
          rcases List.mem_append.mp hc with h | h
          · exact hw.1 c h hcw
          · rcases List.mem_cons.mp h with h2 | h2
            · exact h2
            · exact hWsJ.1 c h2 hcw
        · rw [List.chain'_append]
          refine ⟨hw.2, ?_, ?_⟩
          · rw [List.chain'_cons']
            refine ⟨?_, hWsJ.2⟩
            intro y hy hcon
            rw [joinSpace_head? rest2 hqne] at hy
            have hyw := (hall q (by simp)).2.1 y (Option.mem_def.mp hy)
            rw [hyw] at hcon
            exact absurd hcon.2 (by simp)
          · intro a ha d hd
            have hd2 : ' ' = d := by simpa using hd
            subst hd2
            intro hcon
            have haw := hl a (Option.mem_def.mp ha)
            rw [haw] at hcon
            exact absurd hcon.1 (by simp)
      · intro c hc
        rw [joinSpace_head? (q :: rest2) hne] at hc
        exact hh c hc
      · intro c hc
        rw [joinSpace_cons2, List.getLast?_append] at hc
        have h2 : (' ' :: joinSpace (q :: rest2)).getLast?
            = (joinSpace (q :: rest2)).getLast? := by
          cases hJ : joinSpace (q :: rest2) with
          | nil => exact absurd hJ hJne
          | cons y ys => rw [List.getLast?_cons_cons]
        rw [h2] at hc
        cases hJl : (joinSpace (q :: rest2)).getLast? with
        | none => exact absurd (List.getLast?_eq_none_iff.mp hJl) hJne
        | some a =>
          rw [hJl] at hc
          simp only [Option.or_some, Option.some_inj] at hc
          subst hc
          exact hLJ a hJl

/-- Filtering a list of sentences that the filter leaves unchanged is the
identity. -/
lemma filterMap_fixed {f : List Char → Option (List Char)} : ∀ (ps : List (List Char)),
    (∀ p ∈ ps, f p = some p) → ps.filterMap f = ps := by
  intro ps
  induction ps with
  | nil => intro _; rfl
  | cons p rest ih =>
    intro h
    rw [List.filterMap_cons_some (h p (by simp)),
      ih (fun r hr => h r (List.mem_cons_of_mem _ hr))]

/-- The separation invariant survives the per-sentence filter. -/
lemma sepOk_filterMap {f : List Char → Option (List Char)} : ∀ (l : List (List Char)),
    (∀ s ∈ l.dropLast, ∀ p, f s = some p → EndsPunct p) →
    SepOk (l.filterMap f) := by
  intro l
  induction l with
  | nil =>
    intro _ p hp
    simp at hp
  | cons s l2 ih =>
    intro h
    have hrest : ∀ s2 ∈ l2.dropLast, ∀ p, f s2 = some p → EndsPunct p := by
      intro s2 hs2 p hp
      refine h s2 ?_ p hp
      cases l2 with
      | nil => simp at hs2
      | cons a b =>
        rw [List.dropLast_cons₂]
        exact List.mem_cons_of_mem _ hs2
    cases hf : f s with
    | none =>
      rw [List.filterMap_cons_none hf]
      exact ih hrest
    | some p =>
      rw [List.filterMap_cons_some hf]
      intro r hr
      cases hM : l2.filterMap f with
      | nil =>
        rw [hM] at hr
        simp at hr
      | cons m M2 =>
        rw [hM, List.dropLast_cons₂] at hr
        rcases List.mem_cons.mp hr with h1 | h1
        · subst h1
          have hl2 : l2 ≠ [] := by
            intro hx
            rw [hx] at hM
            simp at hM
          have hs_mem : s ∈ (s :: l2).dropLast := by
            cases l2 with
            | nil => exact absurd rfl hl2
            | cons a b =>
              rw [List.dropLast_cons₂]
              exact List.mem_cons_self _ _
          exact h s hs_mem r hf
        · refine ih hrest r ?_
          rw [hM]
          exact h1

/-- Whitespace normalization establishes its invariant. -/
lemma normalizeWhitespace_wsNorm (x : List Char) : WsNorm (normalizeWhitespace x) := by
  unfold normalizeWhitespace collapseNl
  have h1 : WsNorm (collapseWs x) := collapseWsAux_wsNorm x false
  rw [collapseNlAux_eq_self _ false (wsNorm_no_nl h1)]
  exact wsNorm_part h1 (strip_part _)

/-- Claim C3: the content filter is idempotent — filtering any text twice
gives the same result as filtering it once. -/
theorem filter_content_idempotent (x : List Char) :
    filterContent (filterContent x) = filterContent x := by
  have hWsT : WsNorm (normalizeWhitespace x) := normalizeWhitespace_wsNorm x
  set t := normalizeWhitespace x with ht
  set PS := (sentTokenize t).filterMap processSentence with hPS
  have hgood : ∀ p ∈ PS,
      p ≠ [] ∧ HeadNonWs p ∧ LastNonWs p ∧ WsNorm p ∧ NoBreak p ∧
      processSentence p = some p := by
    intro p hp
    rcases List.mem_filterMap.mp hp with ⟨s, hs, hproc⟩
    have hWss : WsNorm s := wsNorm_part hWsT (sentTokenize_part hs)
    have hNbs : NoBreak s :=
      sentAux_noBreak t [] true List.chain'_nil
        (by intro a d hcontra; simp at hcontra) (fun _ => rfl) s hs
    obtain ⟨h1, h2, h3, h4, h5, h6, _⟩ := processed_good hWss hNbs hproc
    exact ⟨h1, h2, h3, h4, h5, h6⟩
  have hsep : SepOk PS := by
    apply sepOk_filterMap
    intro s hs p hproc
    have hs2 : s ∈ sentTokenize t := List.dropLast_subset _ hs
    have hWss : WsNorm s := wsNorm_part hWsT (sentTokenize_part hs2)
    have hNbs : NoBreak s :=
      sentAux_noBreak t [] true List.chain'_nil
        (by intro a d hcontra; simp at hcontra) (fun _ => rfl) s hs2
    have hep : EndsPunct s := sentAux_sepOk t [] true s hs
    exact (processed_good hWss hNbs hproc).2.2.2.2.2.2 hep
  have hnorm : normalizeWhitespace (joinSpace PS) = joinSpace PS := by
    obtain ⟨hW, hH, hL⟩ := joinSpace_invariants PS
      (fun p hp => ⟨(hgood p hp).1, (hgood p hp).2.1, (hgood p hp).2.2.1,
        (hgood p hp).2.2.2.1⟩)
    exact normalizeWhitespace_eq_self hW hH hL
  have htok : sentTokenize (joinSpace PS) = PS :=
    sentTokenize_joinSpace PS
      (fun p hp => ⟨(hgood p hp).1, (hgood p hp).2.1, (hgood p hp).2.2.2.2.1⟩) hsep
  have hfix : PS.filterMap processSentence = PS :=
    filterMap_fixed PS (fun p hp => (hgood p hp).2.2.2.2.2)
  have key : filterContent (joinSpace PS) = joinSpace PS := by
    unfold filterContent
    rw [hnorm, htok, hfix]
  exact key

/-- Claim C4: the output of filter_content contains no newline characters, so
splitting the filtered text on blank-line boundaries always yields exactly
one paragraph — the synthesizer processes the entire filtered text of a
document as a single paragraph. -/
theorem filter_output_single_paragraph (t : List Char) :
    '\n' ∉ filterContent t ∧ splitParas (filterContent t) = [filterContent t] := by
  refine ⟨filterContent_nl_not_mem t, ?_⟩
  unfold splitParas
  rw [splitParasAux_no_nl _ _ _ (filterContent_nl_not_mem t)]
  simp

end LoreSmith
